import Mathlib

/-!
# psirent: discovery (`coordinator.Ls`) and retrieval (`peer.Get`)

A shallow embedding of `filedistrib/coordinator/ls.go` and
`filedistrib/peer/get.go`, and the properties of the two engines.

Conventions of the embedding

* The network and the tracker are the environment: every dial, probe, lookup
  and fragment response is given by an oracle, so that a statement quantified
  over the oracle holds for every behaviour of the peers.
* Goroutines of one round touch disjoint fragment artifacts; the only shared
  effects are the order of the values on the `results` channel and the winner
  of `filenameOnce`. Both orders are oracles as well (`finish`, `reach`).
* A byte string is a `List Char`, one element per byte.
* The writer handed to `Ls` accepts every write, so the text written is the
  text `Ls` produces.
* Local storage is ideal: creating, writing and removing a file succeed;
  opening a file fails exactly when it does not exist. The artifact
  `<filehash>.frag<N>` is identified with its number `N`; artifacts of
  different numbers are different files.
* The destination path `received/<filename>` is built from a name sent by a
  peer, so it can be the path of an artifact (for the filehash `h` the name
  `../h.frag1` gives the path of artifact 1). Which file the path names is
  decided by the file system; the oracle `destAlias` gives its answer.
-/

namespace Psirent

/-! ## Discovery: `coordinator.Ls` -/

/-- What happens when `Ls` dials a peer and asks whether it has a file:
`net.Dial` fails, `Has` answers true, or `Has` answers false. -/
inductive Probe where
  | unreachable
  | holds
  | lacks
  deriving DecidableEq, Repr

/-- The type `persistent.Storage`, a Go map from file hash to the list of peer
addresses. It is kept as an association list whose order is the order in which
`range` delivers the entries; the keys of a map are pairwise distinct. -/
abbrev Storage := List (String × List String)

/-- Modelled from the spec: `persistent.Remove(storage, filehash, i)` is not
among the sources; following the description of the Directory ("removal of a
specific (identifier, position) entry") it deletes the entry at position `i`
of the list currently stored for `filehash`. -/
def Remove (storage : Storage) (filehash : String) (i : Nat) : Storage :=
  storage.map fun e => if e.1 = filehash then (e.1, e.2.eraseIdx i) else e

/-- The list stored for `filehash` (empty when the key is absent). -/
def peersOf (storage : Storage) (filehash : String) : List String :=
  (storage.lookup filehash).getD []

/-- The variables of `Ls` that change while it runs: the buffered output, the
counter `available` and the storage. -/
structure LsState where
  out : String
  available : Nat
  storage : Storage
  deriving DecidableEq, Repr

/-- The body of `for i, ip := range ips`, from position `i` on. `ips` is the
slice value taken when the outer loop reached `filehash`; the boolean is
`hashSeen`. -/
def lsInner (sep : String) (probe : String → String → Probe) (filehash : String) :
    Nat → List String → Bool → LsState → Bool × LsState
  | _, [], hashSeen, st => (hashSeen, st)
  | i, ip :: rest, hashSeen, st =>
    match probe filehash ip with
    | .unreachable => lsInner sep probe filehash (i + 1) rest hashSeen st
    | .holds =>
      if hashSeen then lsInner sep probe filehash (i + 1) rest hashSeen st
      else
        let out1 := if st.available > 0 then st.out ++ sep else st.out
        lsInner sep probe filehash (i + 1) rest true
          { st with out := out1 ++ filehash, available := st.available + 1 }
    | .lacks =>
      lsInner sep probe filehash (i + 1) rest hashSeen
        { st with storage := Remove st.storage filehash i }

/-- The loop `for filehash, ips := range storage` over the entries still to be
visited. -/
def lsOuter (sep : String) (probe : String → String → Probe) :
    List (String × List String) → LsState → LsState
  | [], st => st
  | (filehash, ips) :: rest, st =>
    lsOuter sep probe rest (lsInner sep probe filehash 0 ips false st).2

/-- The function `Ls`: `sep` is `coms.LsSeparator`; the result holds the text
handed to the writer, the returned count and the storage after the pass. -/
def Ls (sep : String) (probe : String → String → Probe) (storage : Storage) : LsState :=
  let st := lsOuter sep probe storage { out := "", available := 0, storage := storage }
  { st with out := st.out ++ "\n" }

/-! ## Retrieval: `peer.Get` and `downloadFragment` -/

/-- A Go string or byte slice. -/
abbrev Bytes := List Char

/-- The constants of the packages `coms` that the two files use. Their values
are not part of the sources, so every statement is made for arbitrary ones. -/
structure Consts where
  lsSeparator : String
  getNoPeer : String
  getNotOK : String
  fragEmpty : Bytes
  fragNotOk : Bytes

/-- The scan behind `strings.Split` for a non-empty separator: `skip` counts the
bytes of a separator just matched that are still to be dropped, `acc` is the
current piece, reversed. -/
def splitScan (sep : Bytes) : Nat → Bytes → Bytes → List Bytes
  | _, acc, [] => [acc.reverse]
  | skip + 1, acc, _ :: t => splitScan sep skip acc t
  | 0, acc, ch :: t =>
    if sep.isPrefixOf (ch :: t) then acc.reverse :: splitScan sep (sep.length - 1) [] t
    else splitScan sep 0 (ch :: acc) t

/-- Go's `strings.Split(s, sep)`: with an empty separator the string is cut
after every character, otherwise at every leftmost occurrence of `sep`. -/
def goSplit (s sep : String) : List String :=
  if sep.toList = [] then s.toList.map fun ch => String.mk [ch]
  else (splitScan sep.toList 0 [] s.toList).map String.mk

/-- One call `reader.ReadString('\n')` that finds its delimiter: the line with
its newline and the bytes after it. `none` when the stream ends first. -/
def readLine : Bytes → Option (Bytes × Bytes)
  | [] => none
  | b :: rest =>
    if b = '\n' then some ([b], rest)
    else (readLine rest).map fun p => (b :: p.1, p.2)

/-- Go's `strings.TrimSuffix(s, "\n")`. -/
def trimNewline (s : Bytes) : Bytes :=
  if s.getLast? = some '\n' then s.dropLast else s

/-- What a fragment connection does: `net.Dial` fails, writing the request
fails, or the peer sends `data` and the stream then ends, cleanly (`io.EOF`) or
with a read error. -/
inductive Conn where
  | dialFail
  | sendFail
  | stream (data : Bytes) (clean : Bool)
  deriving DecidableEq, Repr

/-- Everything one call of `downloadFragment` does that the rest of `Get` can
see: the values it sends on the channel `results` and on the channel
`emptyFrags`, the name it passes to `filenameOnce.Do` (if it gets that far), and
the bytes it leaves in the artifact `<filehash>.frag<fragNo>` (if it creates
it). -/
structure FragResult where
  results : List Nat
  emptyFrags : List Nat
  fname : Option Bytes
  artifact : Option Bytes
  deriving DecidableEq, Repr

/-- The function `downloadFragment` on a given behaviour of the connection. -/
def downloadFragment (c : Consts) (conn : Conn) (fragNo : Nat) : FragResult :=
  match conn with
  | .dialFail => { results := [fragNo], emptyFrags := [], fname := none, artifact := none }
  | .sendFail => { results := [fragNo], emptyFrags := [], fname := none, artifact := none }
  | .stream data clean =>
    match readLine data with
    | none => { results := [fragNo], emptyFrags := [], fname := none, artifact := none }
    | some (fnameLine, rest) =>
      let fname := trimNewline fnameLine
      match readLine rest with
      | none =>
        -- `status` is all of `rest`, `err` is `io.EOF` or the read error
        if clean = false then
          { results := [fragNo], emptyFrags := [], fname := some fname, artifact := none }
        else if trimNewline rest = c.fragEmpty then
          { results := [], emptyFrags := [fragNo], fname := some fname, artifact := none }
        else if trimNewline rest = c.fragNotOk then
          { results := [fragNo], emptyFrags := [], fname := some fname, artifact := none }
        else
          { results := [], emptyFrags := [], fname := some fname, artifact := some rest }
      | some (status, body) =>
        if trimNewline status = c.fragEmpty then
          { results := [], emptyFrags := [fragNo], fname := some fname, artifact := none }
        else if trimNewline status = c.fragNotOk then
          { results := [fragNo], emptyFrags := [], fname := some fname, artifact := none }
        else if clean then
          { results := [], emptyFrags := [], fname := some fname,
            artifact := some (status ++ body) }
        else
          { results := [fragNo], emptyFrags := [], fname := some fname,
            artifact := some (status ++ body) }

/-- The three outcomes of a fetch. -/
inductive FragOutcome where
  | downloaded
  | empty
  | failed
  deriving DecidableEq, Repr

/-- The outcome of a fetch as the round loop sees it: a value on `emptyFrags`
is `empty`, a value on `results` is `failed`, no value at all is
`downloaded`. -/
def FragResult.outcome (r : FragResult) : FragOutcome :=
  if r.emptyFrags ≠ [] then .empty
  else if r.results ≠ [] then .failed
  else .downloaded

/-- One goroutine of a round: the position of the fragment number in the
attempt list, the fragment number, the peer it was given, and what it did. -/
structure Fetch where
  slot : Nat
  fragNo : Nat
  peer : String
  res : FragResult
  deriving DecidableEq, Repr

/-- The record of one round that launched its fetches. -/
structure RoundRec where
  peerList : List String
  fetches : List Fetch
  deriving DecidableEq, Repr

/-- The attempt list of a round. -/
def RoundRec.attempts (r : RoundRec) : List Nat := r.fetches.map Fetch.fragNo

/-- The values the fetches of a round send on the channel `results`: the
fragment numbers that reported failed. -/
def RoundRec.failed (r : RoundRec) : List Nat := r.fetches.flatMap fun f => f.res.results

/-- The values the fetches of a round send on the channel `emptyFrags`: the
fragment numbers that reported empty. -/
def RoundRec.empties (r : RoundRec) : List Nat := r.fetches.flatMap fun f => f.res.emptyFrags

/-- What the tracker channel does in one round: writing the request fails,
`scanner.Scan()` returns false, or a line is read. -/
inductive Lookup where
  | sendFail
  | noLine
  | line (response : String)
  deriving DecidableEq, Repr

/-- The environment of one call of `Get`. `lookup r` is the tracker in round `r`
(counted from 0); `fetch r peer fragNo` is the connection to `peer` for
`fragNo` in round `r`; `finish r fragNo` is the time at which that goroutine
sends its value, `reach r fragNo` the time at which it calls
`filenameOnce.Do`; `disk0` are the artifacts present before the call;
`destAlias name` is `some k` when the path `received/<name>` names the file of
artifact `k`, and `none` when it names a file of its own; `share` tells whether
`HandleShare` succeeds. -/
structure Env where
  lookup : Nat → Lookup
  fetch : Nat → String → Nat → Conn
  finish : Nat → Nat → Nat
  reach : Nat → Nat → Nat
  disk0 : Nat → Option Bytes
  destAlias : Bytes → Option Nat
  share : Bool

/-- The errors `Get` can return; `crash` is the run-time panic of
`i % len(peerList)` on an empty peer list; `selfCopy` stands for `io.Copy` of
the non-empty destination file into itself, which reads what it appends and so
goes on until a write fails. -/
inductive GetErr where
  | sendFailed
  | lostConnection
  | noPeerOnline
  | fileNotShared
  | crash
  | filenameNotSet
  | openFailed (fragNo : Nat)
  | selfCopy
  | shareFailed
  deriving DecidableEq, Repr

/-- Where the round loop stands. -/
inductive Phase where
  | running
  | finished
  | aborted (e : GetErr)
  deriving DecidableEq, Repr

/-- The variables of `Get` during the round loop. `totalFragments` and
`filename` are `none` while their `sync.Once` has not fired;
`failedFragments` is `none` for the nil slice; `disk` maps a fragment number to
the content of its artifact; `lookups` counts the lookup requests; `log` is
the list of rounds that launched fetches, the latest first. -/
structure Session where
  phase : Phase
  lookups : Nat
  totalFragments : Option Nat
  filename : Option Bytes
  emptyFragSet : List Nat
  failedFragments : Option (List Nat)
  disk : Nat → Option Bytes
  log : List RoundRec

/-- The goroutines launched by `for i, fragNo := range failedFragments`. -/
def launch (c : Consts) (env : Env) (r : Nat) (peerList : List String)
    (attempts : List Nat) : List Fetch :=
  attempts.enum.map fun p =>
    let peer := peerList.getD (p.1 % peerList.length) ""
    { slot := p.1, fragNo := p.2, peer := peer,
      res := downloadFragment c (env.fetch r peer p.2) p.2 }

/-- The artifacts after a round: every fetch that created its file leaves its
bytes there. -/
def writeArtifacts (disk : Nat → Option Bytes) (fetches : List Fetch) : Nat → Option Bytes :=
  fetches.foldl
    (fun d f => match f.res.artifact with
      | some b => Function.update d f.fragNo (some b)
      | none => d)
    disk

/-- The name that `filenameOnce.Do` stores in a round in which it has not fired
before: that of the fetch which reaches it first. -/
def firstName (env : Env) (r : Nat) (fetches : List Fetch) : Option Bytes :=
  (((fetches.filter fun f => f.res.fname.isSome).insertionSort
      fun a b => env.reach r a.fragNo ≤ env.reach r b.fragNo).head?).bind fun f => f.res.fname

/-- The fetches of a round in the order in which they finish. -/
def byFinish (env : Env) (r : Nat) (fetches : List Fetch) : List Fetch :=
  fetches.insertionSort fun a b => env.finish r a.fragNo ≤ env.finish r b.fragNo

/-- One iteration of the `for` loop of `Get`. -/
def roundStep (c : Consts) (env : Env) (s : Session) : Session :=
  match s.phase with
  | .running =>
    let r := s.lookups
    match env.lookup r with
    | .sendFail => { s with phase := .aborted .sendFailed, lookups := r + 1 }
    | .noLine => { s with phase := .aborted .lostConnection, lookups := r + 1 }
    | .line response =>
      if response = c.getNoPeer then
        { s with phase := .aborted .noPeerOnline, lookups := r + 1 }
      else if response = c.getNotOK then
        { s with phase := .aborted .fileNotShared, lookups := r + 1 }
      else
        let peerList := goSplit response c.lsSeparator
        let total := s.totalFragments.getD peerList.length
        let attempts := s.failedFragments.getD (List.range' 1 total)
        if peerList = [] ∧ attempts ≠ [] then
          { s with phase := .aborted .crash, lookups := r + 1, totalFragments := some total }
        else
          let fetches := launch c env r peerList attempts
          let done := byFinish env r fetches
          let failed := done.flatMap fun f => f.res.results
          { phase := if failed = [] then .finished else .running
            lookups := r + 1
            totalFragments := some total
            filename := match s.filename with
              | some n => some n
              | none => firstName env r fetches
            emptyFragSet := s.emptyFragSet ++ done.flatMap fun f => f.res.emptyFrags
            failedFragments := if failed = [] then none else some failed
            disk := writeArtifacts s.disk fetches
            log := { peerList := peerList, fetches := fetches } :: s.log }
  | _ => s

/-- The state of `Get` on entry. -/
def Session.init (env : Env) : Session :=
  { phase := .running, lookups := 0, totalFragments := none, filename := none,
    emptyFragSet := [], failedFragments := none, disk := env.disk0, log := [] }

/-- The round loop, cut after `n` iterations. -/
def runRounds (c : Consts) (env : Env) : Nat → Session
  | 0 => Session.init env
  | n + 1 => roundStep c env (runRounds c env n)

/-- The effect on the artifacts of writing through the handle of the
destination file: when the destination path names artifact `k` and that path
has not been removed, the content of artifact `k` is what has been written so
far. -/
def writeThrough (dest : Option Nat) (disk : Nat → Option Bytes) (file : Bytes) :
    Nat → Option Bytes :=
  match dest with
  | some k => if (disk k).isSome then Function.update disk k (some file) else disk
  | none => disk

/-- The loop `for i := 1; i <= totalFragments; i++` of the reassembly over the
fragment numbers still to come. `dest` tells which artifact, if any, the
destination path names; `file` are the bytes written through the destination
handle so far. The result is the error (if any), the artifacts and the bytes
written. When the artifact opened is the destination itself, it holds what has
been written so far: copying it is a copy of nothing when that is empty, and
`os.Remove` then unlinks the destination path. -/
def mergeLoop (emptyFragSet : List Nat) (dest : Option Nat) :
    List Nat → (Nat → Option Bytes) → Bytes → Option GetErr × (Nat → Option Bytes) × Bytes
  | [], disk, file => (none, disk, file)
  | i :: rest, disk, file =>
    if i ∈ emptyFragSet then mergeLoop emptyFragSet dest rest disk file
    else
      match disk i with
      | none => (some (.openFailed i), disk, file)
      | some b =>
        if dest = some i ∧ b ≠ [] then (some .selfCopy, disk, file)
        else
          mergeLoop emptyFragSet dest rest
            (Function.update (writeThrough dest disk (file ++ b)) i none) (file ++ b)

/-- What a call of `Get` leaves behind: the returned error, the state at the end
of the round loop, the artifacts on storage at the end, and, once the
destination file has been created, its path and the bytes written to it. -/
structure Outcome where
  err : Option GetErr
  sess : Session
  disk : Nat → Option Bytes
  received : Option (Bytes × Bytes)

/-- The artifacts after `os.Create` of the destination: when the destination
path names artifact `k`, that artifact is created or truncated. -/
def createDest (dest : Option Nat) (disk : Nat → Option Bytes) : Nat → Option Bytes :=
  match dest with
  | some k => Function.update disk k (some [])
  | none => disk

/-- The function `Get`; `none` when the round loop is still running after `fuel`
rounds. -/
def Get (c : Consts) (env : Env) (fuel : Nat) : Option Outcome :=
  let s := runRounds c env fuel
  match s.phase with
  | .running => none
  | .aborted e => some { err := some e, sess := s, disk := s.disk, received := none }
  | .finished =>
    let filename := s.filename.getD []
    if filename = [] then
      some { err := some .filenameNotSet, sess := s, disk := s.disk, received := none }
    else
      let dest := env.destAlias filename
      let m := mergeLoop s.emptyFragSet dest (List.range' 1 (s.totalFragments.getD 0))
        (createDest dest s.disk) []
      let path := "received/".toList ++ filename
      match m.1 with
      | some e => some { err := some e, sess := s, disk := m.2.1, received := some (path, m.2.2) }
      | none =>
        some { err := if env.share then none else some .shareFailed,
               sess := s, disk := m.2.1, received := some (path, m.2.2) }

/-- The outcome of the latest fetch of fragment `n` in a log (latest round
first). -/
def lastOutcome : List RoundRec → Nat → Option FragOutcome
  | [], _ => none
  | r :: older, n =>
    match r.fetches.find? fun f => f.fragNo = n with
    | some f => some f.res.outcome
    | none => lastOutcome older n

/-! ## Predicates used in the proofs -/

/-- The identifiers a discovery pass emits for the entries `es`, in the order of
the visit: those with a listed peer whose probe answers true. -/
def emitted (probe : String → String → Probe) (es : List (String × List String)) :
    List String :=
  (es.filter fun e => e.2.any fun ip => probe e.1 ip = .holds).map Prod.fst

/-- A fetch sends at most one value, its own fragment number, on one of the two
channels. -/
def Fetch.Shaped (f : Fetch) : Prop :=
  (f.res.results = [f.fragNo] ∧ f.res.emptyFrags = []) ∨
  (f.res.results = [] ∧ f.res.emptyFrags = [f.fragNo]) ∨
  (f.res.results = [] ∧ f.res.emptyFrags = [])

/-- The record `r` is what round `k` of the loop produces from its attempt
list. -/
def RecOK (c : Consts) (env : Env) (k : Nat) (r : RoundRec) : Prop :=
  ∃ resp, env.lookup k = .line resp ∧ r.peerList = goSplit resp c.lsSeparator ∧
    (r.peerList = [] → r.attempts = []) ∧
    r.fetches = launch c env k r.peerList r.attempts

/-- A log (latest round first) is a chain: the first round attempts
`1..T` on a peer list of length `T`, and the attempt list of every later round
is the list of values that the round before it sent on `results`, in the order
of their arrival. -/
def LogChain (c : Consts) (env : Env) (T : Nat) : List RoundRec → Prop
  | [] => True
  | r :: older =>
    RecOK c env older.length r ∧
    (match older with
      | [] => r.attempts = List.range' 1 T ∧ r.peerList.length = T
      | r' :: o =>
        r.attempts = (byFinish env o.length r'.fetches).flatMap fun f => f.res.results) ∧
    LogChain c env T older

/-- The invariant of the round loop after `n` iterations. -/
structure SessionInv (c : Consts) (env : Env) (n : Nat) (s : Session) : Prop where
  count : s.phase = .running → s.lookups = n ∧ s.log.length = n
  fresh : s.log = [] → s.emptyFragSet = [] ∧ s.failedFragments = none ∧
    (s.phase = .running → s.totalFragments = none) ∧ s.phase ≠ .finished
  chain : LogChain c env (s.totalFragments.getD 0) s.log
  total : s.log ≠ [] → ∃ T, s.totalFragments = some T
  empties : ∀ N, N ∈ s.emptyFragSet ↔ ∃ r ∈ s.log, N ∈ r.empties
  pending : s.phase = .running → ∀ r older, s.log = r :: older →
    ∃ l, s.failedFragments = some l ∧
      l = (byFinish env older.length r.fetches).flatMap fun f => f.res.results
  done : s.phase = .finished → ∀ r older, s.log = r :: older → r.failed = []
  stored : ∀ N, lastOutcome s.log N = some .downloaded → (s.disk N).isSome

/-! ## Example inputs -/

/-- Example values for the constants. -/
def demoConsts : Consts :=
  { lsSeparator := ",", getNoPeer := "NOPEER", getNotOK := "NOTSHARED",
    fragEmpty := "EMPTY".toList, fragNotOk := "NOTOK".toList }

/-- A peer that answers with the filename `f.txt` and a one-line body made from
the fragment number. -/
def goodPeer (fragNo : Nat) : Conn :=
  .stream ("f.txt\n".toList ++ [Char.ofNat (64 + fragNo), Char.ofNat (96 + fragNo), '\n']) true

/-- Scenario 1 of the specification: the first lookup returns `p1,p2,p3`,
fragment 2 gets the not-ok token from `p2`, every later lookup returns
`p1,p3`. -/
def retryEnv : Env :=
  { lookup := fun r => if r = 0 then .line "p1,p2,p3" else .line "p1,p3"
    fetch := fun r peer fragNo =>
      if r = 0 ∧ peer = "p2" then .stream "f.txt\nNOTOK\n".toList true else goodPeer fragNo
    finish := fun _ fragNo => fragNo
    reach := fun _ fragNo => fragNo
    disk0 := fun _ => none
    destAlias := fun _ => none
    share := true }

/-- One peer and one fragment. In the first round the peer sends the filename,
a first body line and two more bytes, then the read fails; in the second round
it reports the fragment empty. -/
def leakEnv : Env :=
  { lookup := fun _ => .line "p1"
    fetch := fun r _ _ =>
      if r = 0 then .stream "f.txt\nAB\nCD".toList false
      else .stream "f.txt\nEMPTY\n".toList true
    finish := fun _ fragNo => fragNo
    reach := fun _ fragNo => fragNo
    disk0 := fun _ => none
    destAlias := fun _ => none
    share := true }

/-- One peer that cannot be dialled in the first round; the second lookup
answers with the no-peer token. -/
def noPeerEnv : Env :=
  { lookup := fun r => if r = 0 then .line "p1" else .line "NOPEER"
    fetch := fun _ _ _ => .dialFail
    finish := fun _ fragNo => fragNo
    reach := fun _ fragNo => fragNo
    disk0 := fun _ => none
    destAlias := fun _ => none
    share := true }

/-- Three peers: in the first round the peer of fragment 1 cannot be dialled,
fragment 2 is reported empty and fragment 3 arrives; from the second round on
every fetch succeeds. -/
def mixedEnv : Env :=
  { lookup := fun _ => .line "p1,p2,p3"
    fetch := fun r _ fragNo =>
      if r = 0 ∧ fragNo = 1 then .dialFail
      else if r = 0 ∧ fragNo = 2 then .stream "f.txt\nEMPTY\n".toList true
      else goodPeer fragNo
    finish := fun _ fragNo => fragNo
    reach := fun _ fragNo => fragNo
    disk0 := fun _ => none
    destAlias := fun _ => none
    share := true }

/-- Two peers that both send the filename `../h.frag1`, which for the filehash
`h` gives the destination path `received/../h.frag1`, the path of artifact 1;
`share` is the result of `HandleShare`. -/
def aliasEnv (share : Bool) : Env :=
  { lookup := fun _ => .line "p1,p2"
    fetch := fun _ _ fragNo =>
      .stream ("../h.frag1\n".toList ++
        [Char.ofNat (64 + fragNo), Char.ofNat (96 + fragNo), '\n']) true
    finish := fun _ fragNo => fragNo
    reach := fun _ fragNo => fragNo
    disk0 := fun _ => none
    destAlias := fun name => if name = "../h.frag1".toList then some 1 else none
    share := share }

/-- Scenario 2 of the specification (three peers, fragment 2 is reported
empty) with the filename `../x.frag2`: for the filehash `x` the destination
path is the path of the artifact of fragment 2. -/
def emptyAliasEnv : Env :=
  { lookup := fun _ => .line "p1,p2,p3"
    fetch := fun _ _ fragNo =>
      if fragNo = 2 then .stream "../x.frag2\nEMPTY\n".toList true
      else .stream ("../x.frag2\n".toList ++
        [Char.ofNat (64 + fragNo), Char.ofNat (96 + fragNo), '\n']) true
    finish := fun _ fragNo => fragNo
    reach := fun _ fragNo => fragNo
    disk0 := fun _ => none
    destAlias := fun name => if name = "../x.frag2".toList then some 2 else none
    share := true }

/-- Three peers that cannot be dialled in the first round, where the failures
arrive in the order 3, 1, 2; from the second lookup on the peers are `p4, p5`
and every fetch succeeds. -/
def orderEnv : Env :=
  { lookup := fun r => if r = 0 then .line "p1,p2,p3" else .line "p4,p5"
    fetch := fun r _ fragNo => if r = 0 then .dialFail else goodPeer fragNo
    finish := fun _ fragNo => if fragNo = 3 then 0 else fragNo
    reach := fun _ fragNo => fragNo
    disk0 := fun _ => none
    destAlias := fun _ => none
    share := true }

/-- The first round of `orderEnv` as `Get` records it. -/
def orderRound0 : RoundRec :=
  { peerList := ["p1", "p2", "p3"]
    fetches :=
      [{ slot := 0, fragNo := 1, peer := "p1"
         res := { results := [1], emptyFrags := [], fname := none, artifact := none } },
       { slot := 1, fragNo := 2, peer := "p2"
         res := { results := [2], emptyFrags := [], fname := none, artifact := none } },
       { slot := 2, fragNo := 3, peer := "p3"
         res := { results := [3], emptyFrags := [], fname := none, artifact := none } }] }

/-- The second round of `orderEnv` as `Get` records it. -/
def orderRound1 : RoundRec :=
  { peerList := ["p4", "p5"]
    fetches :=
      [{ slot := 0, fragNo := 3, peer := "p4"
         res := { results := [], emptyFrags := [], fname := some "f.txt".toList,
                  artifact := some "Cc\n".toList } },
       { slot := 1, fragNo := 1, peer := "p5"
         res := { results := [], emptyFrags := [], fname := some "f.txt".toList,
                  artifact := some "Aa\n".toList } },
       { slot := 2, fragNo := 2, peer := "p4"
         res := { results := [], emptyFrags := [], fname := some "f.txt".toList,
                  artifact := some "Bb\n".toList } }] }

/-- The first round of `mixedEnv` as `Get` records it. -/
def mixedRound0 : RoundRec :=
  { peerList := ["p1", "p2", "p3"]
    fetches :=
      [{ slot := 0, fragNo := 1, peer := "p1"
         res := { results := [1], emptyFrags := [], fname := none, artifact := none } },
       { slot := 1, fragNo := 2, peer := "p2"
         res := { results := [], emptyFrags := [2], fname := some "f.txt".toList,
                  artifact := none } },
       { slot := 2, fragNo := 3, peer := "p3"
         res := { results := [], emptyFrags := [], fname := some "f.txt".toList,
                  artifact := some "Cc\n".toList } }] }

/-- The second round of `mixedEnv` as `Get` records it. -/
def mixedRound1 : RoundRec :=
  { peerList := ["p1", "p2", "p3"]
    fetches :=
      [{ slot := 0, fragNo := 1, peer := "p1"
         res := { results := [], emptyFrags := [], fname := some "f.txt".toList,
                  artifact := some "Aa\n".toList } }] }

/-- The second round of `retryEnv` as `Get` records it. -/
def retryRound1 : RoundRec :=
  { peerList := ["p1", "p3"]
    fetches :=
      [{ slot := 0, fragNo := 2, peer := "p1"
         res := { results := [], emptyFrags := [], fname := some "f.txt".toList,
                  artifact := some "Bb\n".toList } }] }

/-- Probe outcomes for the list `a, b, c`: `a` and `b` no longer hold the file,
every other peer does. -/
def staleProbe : String → String → Probe :=
  fun _ ip => if ip = "a" ∨ ip = "b" then .lacks else .holds

/-- Probe outcomes in which exactly `p1` and `p3` hold what is asked. -/
def liveProbe : String → String → Probe :=
  fun _ ip => if ip = "p1" ∨ ip = "p3" then .holds else .lacks

/-! ## Properties -/

/-! ### Facts about the discovery pass -/

theorem intercalate_go_snoc (sep x : String) (as : List String) (acc : String) :
    String.intercalate.go acc sep (as ++ [x]) = String.intercalate.go acc sep as ++ sep ++ x := by
  induction as generalizing acc with
  | nil => simp [String.intercalate.go]
  | cons a as ih => simp [String.intercalate.go, ih]

theorem intercalate_snoc (sep x : String) (ids : List String) :
    String.intercalate sep (ids ++ [x])
      = (if ids.length > 0 then String.intercalate sep ids ++ sep else String.intercalate sep ids) ++ x := by
  cases ids with
  | nil => simp [String.intercalate, String.intercalate.go]
  | cons a as => simp [String.intercalate, intercalate_go_snoc]

theorem lsInner_seen (sep : String) (probe : String → String → Probe) (h : String)
    (ips : List String) (i : Nat) (st : LsState) :
    (lsInner sep probe h i ips true st).2.out = st.out ∧
    (lsInner sep probe h i ips true st).2.available = st.available := by
  induction ips generalizing i st with
  | nil => simp [lsInner]
  | cons ip rest ih =>
    unfold lsInner
    split
    · exact ih _ _
    · simpa using ih _ _
    · simpa using ih _ _

theorem lsInner_out (sep : String) (probe : String → String → Probe) (h : String)
    (ips : List String) (i : Nat) (st : LsState) :
    (lsInner sep probe h i ips false st).2.out =
      (if ips.any (fun ip => probe h ip = .holds) then
        (if st.available > 0 then st.out ++ sep else st.out) ++ h else st.out) ∧
    (lsInner sep probe h i ips false st).2.available =
      (if ips.any (fun ip => probe h ip = .holds) then st.available + 1 else st.available) := by
  induction ips generalizing i st with
  | nil => simp [lsInner]
  | cons ip rest ih =>
    unfold lsInner
    split
    · rename_i hp
      simpa [hp] using ih _ _
    · rename_i hp
      simpa [hp] using lsInner_seen sep probe h rest (i + 1) _
    · rename_i hp
      simpa [hp] using ih _ _

theorem lsOuter_out (sep : String) (probe : String → String → Probe)
    (es : List (String × List String)) (ids : List String) (st : LsState)
    (ho : st.out = String.intercalate sep ids) (ha : st.available = ids.length) :
    (lsOuter sep probe es st).out = String.intercalate sep (ids ++ emitted probe es) ∧
    (lsOuter sep probe es st).available = (ids ++ emitted probe es).length := by
  induction es generalizing ids st with
  | nil => simp [lsOuter, emitted, ho, ha]
  | cons e rest ih =>
    obtain ⟨h, ips⟩ := e
    simp only [lsOuter]
    obtain ⟨h1, h2⟩ := lsInner_out sep probe h ips 0 st
    by_cases hh : ips.any (fun ip => probe h ip = .holds) = true
    · have := ih (ids ++ [h]) (lsInner sep probe h 0 ips false st).2
        (by rw [h1, if_pos hh, intercalate_snoc, ho, ha]) (by rw [h2, if_pos hh, ha]; simp)
      simpa [emitted, List.filter_cons, hh] using this
    · have := ih ids (lsInner sep probe h 0 ips false st).2
        (by rw [h1, if_neg hh, ho]) (by rw [h2, if_neg hh, ha])
      simpa [emitted, List.filter_cons, hh] using this


/-! ### Facts about reading a response -/

theorem downloadFragment_sends (c : Consts) (conn : Conn) (N : Nat) :
    ((downloadFragment c conn N).results = [N] ∧ (downloadFragment c conn N).emptyFrags = []) ∨
    ((downloadFragment c conn N).results = [] ∧ (downloadFragment c conn N).emptyFrags = [N]) ∨
    ((downloadFragment c conn N).results = [] ∧ (downloadFragment c conn N).emptyFrags = []) := by
  unfold downloadFragment
  repeat' split
  all_goals simp

theorem launch_attempts (c : Consts) (env : Env) (r : Nat) (pl : List String) (att : List Nat) :
    (launch c env r pl att).map Fetch.fragNo = att := by
  simp only [launch, List.map_map]
  conv_rhs => rw [← List.enum_map_snd att]
  rfl

theorem launch_shaped (c : Consts) (env : Env) (r : Nat) (pl : List String) (att : List Nat) :
    ∀ f ∈ launch c env r pl att, f.Shaped := by
  intro f hf
  simp only [launch, List.mem_map] at hf
  obtain ⟨p, _, rfl⟩ := hf
  exact downloadFragment_sends c _ p.2

theorem launch_res (c : Consts) (env : Env) (r : Nat) (pl : List String) (att : List Nat) :
    ∀ f ∈ launch c env r pl att,
      f.res = downloadFragment c (env.fetch r f.peer f.fragNo) f.fragNo := by
  intro f hf
  simp only [launch, List.mem_map] at hf
  obtain ⟨p, _, rfl⟩ := hf
  rfl

theorem downloadFragment_saved (c : Consts) (conn : Conn) (N : Nat)
    (h : (downloadFragment c conn N).outcome = .downloaded) :
    ((downloadFragment c conn N).artifact).isSome := by
  unfold downloadFragment at h ⊢
  repeat' split
  all_goals simp_all [FragResult.outcome]

theorem writeArtifacts_keeps (fs : List Fetch) :
    ∀ (disk : Nat → Option Bytes) (N : Nat), (disk N).isSome →
      (writeArtifacts disk fs N).isSome := by
  induction fs with
  | nil => intro disk N h; exact h
  | cons g rest ih =>
    intro disk N h
    simp only [writeArtifacts, List.foldl_cons]
    apply ih
    cases g.res.artifact with
    | none => exact h
    | some b =>
      by_cases e : N = g.fragNo
      · subst e
        simp
      · simpa [Function.update_noteq e] using h

theorem writeArtifacts_written (fs : List Fetch) :
    ∀ (disk : Nat → Option Bytes) (f : Fetch), f ∈ fs → f.res.artifact.isSome →
      (writeArtifacts disk fs f.fragNo).isSome := by
  induction fs with
  | nil => intro disk f hf; simp at hf
  | cons g rest ih =>
    intro disk f hf ha
    rcases List.mem_cons.1 hf with rfl | hmem
    · simp only [writeArtifacts, List.foldl_cons]
      apply writeArtifacts_keeps
      obtain ⟨b, hb⟩ := Option.isSome_iff_exists.1 ha
      simp [hb]
    · simp only [writeArtifacts, List.foldl_cons]
      exact ih _ f hmem ha

theorem launch_getElem? (c : Consts) (env : Env) (r : Nat) (pl : List String) (att : List Nat)
    (i : Nat) (f : Fetch) (h : (launch c env r pl att)[i]? = some f) :
    att[i]? = some f.fragNo ∧ f.slot = i ∧ f.peer = pl.getD (i % pl.length) "" ∧
    f.res = downloadFragment c (env.fetch r f.peer f.fragNo) f.fragNo := by
  simp only [launch, List.getElem?_map, List.getElem?_enum, Option.map_map] at h
  cases hN : att[i]? with
  | none => simp [hN] at h
  | some N =>
    simp only [hN, Option.map_some', Function.comp, Option.some.injEq] at h
    subst h
    simp

theorem RecOK.shaped {c : Consts} {env : Env} {k : Nat} {r : RoundRec} (h : RecOK c env k r) :
    ∀ f ∈ r.fetches, f.Shaped := by
  obtain ⟨_, _, _, _, hf⟩ := h
  rw [hf]
  exact launch_shaped c env k _ _

theorem results_sublist (fs : List Fetch) (hs : ∀ f ∈ fs, f.Shaped) :
    (fs.flatMap fun f => f.res.results).Sublist (fs.map Fetch.fragNo) := by
  induction fs with
  | nil => simp
  | cons g rest ih =>
    have ih' := ih fun f hf => hs f (List.mem_cons_of_mem _ hf)
    simp only [List.flatMap_cons, List.map_cons]
    rcases hs g (List.mem_cons_self _ _) with ⟨h1, _⟩ | ⟨h1, _⟩ | ⟨h1, _⟩
    · rw [h1]; exact ih'.cons₂ _
    · rw [h1]; exact ih'.cons _
    · rw [h1]; exact ih'.cons _

theorem emptyFrags_sublist (fs : List Fetch) (hs : ∀ f ∈ fs, f.Shaped) :
    (fs.flatMap fun f => f.res.emptyFrags).Sublist (fs.map Fetch.fragNo) := by
  induction fs with
  | nil => simp
  | cons g rest ih =>
    have ih' := ih fun f hf => hs f (List.mem_cons_of_mem _ hf)
    simp only [List.flatMap_cons, List.map_cons]
    rcases hs g (List.mem_cons_self _ _) with ⟨_, h1⟩ | ⟨_, h1⟩ | ⟨_, h1⟩
    · rw [h1]; exact ih'.cons _
    · rw [h1]; exact ih'.cons₂ _
    · rw [h1]; exact ih'.cons _

theorem Fetch.Shaped.outcome_failed {f : Fetch} (h : f.Shaped) :
    f.res.outcome = .failed ↔ f.fragNo ∈ f.res.results := by
  rcases h with ⟨h1, h2⟩ | ⟨h1, h2⟩ | ⟨h1, h2⟩ <;> simp [FragResult.outcome, h1, h2]

theorem Fetch.Shaped.outcome_empty {f : Fetch} (h : f.Shaped) :
    f.res.outcome = .empty ↔ f.fragNo ∈ f.res.emptyFrags := by
  rcases h with ⟨h1, h2⟩ | ⟨h1, h2⟩ | ⟨h1, h2⟩ <;> simp [FragResult.outcome, h1, h2]

theorem Fetch.Shaped.mem_results {f : Fetch} (h : f.Shaped) {N : Nat} (hN : N ∈ f.res.results) :
    N = f.fragNo := by
  rcases h with ⟨h1, _⟩ | ⟨h1, _⟩ | ⟨h1, _⟩ <;> simp_all

theorem Fetch.Shaped.mem_emptyFrags {f : Fetch} (h : f.Shaped) {N : Nat}
    (hN : N ∈ f.res.emptyFrags) : N = f.fragNo := by
  rcases h with ⟨_, h1⟩ | ⟨_, h1⟩ | ⟨_, h1⟩ <;> simp_all

theorem Fetch.Shaped.sends_le_one {f : Fetch} (h : f.Shaped) :
    f.res.results.length + f.res.emptyFrags.length ≤ 1 := by
  rcases h with ⟨h1, h2⟩ | ⟨h1, h2⟩ | ⟨h1, h2⟩ <;> simp [h1, h2]

theorem Fetch.Shaped.exclusive {f : Fetch} (h : f.Shaped) :
    f.res.results = [] ∨ f.res.emptyFrags = [] := by
  rcases h with ⟨_, h2⟩ | ⟨h1, _⟩ | ⟨h1, _⟩
  · exact Or.inr h2
  · exact Or.inl h1
  · exact Or.inl h1

/-- In a round with pairwise different fragment numbers, the fetch found for `N`
decides whether `N` is among the failed and the empty numbers of the round. -/
theorem find_fetch_some (fs : List Fetch) (hs : ∀ f ∈ fs, f.Shaped)
    (hn : (fs.map Fetch.fragNo).Nodup) (N : Nat) (f : Fetch)
    (hf : fs.find? (fun f => f.fragNo = N) = some f) :
    N ∈ fs.map Fetch.fragNo ∧
    (N ∈ (fs.flatMap fun f => f.res.results) ↔ f.res.outcome = .failed) ∧
    (N ∈ (fs.flatMap fun f => f.res.emptyFrags) ↔ f.res.outcome = .empty) := by
  induction fs with
  | nil => simp at hf
  | cons g rest ih =>
    have hs' : ∀ f ∈ rest, f.Shaped := fun f hf => hs f (List.mem_cons_of_mem _ hf)
    have hg := hs g (List.mem_cons_self _ _)
    simp only [List.map_cons, List.nodup_cons] at hn
    by_cases hgN : g.fragNo = N
    · simp only [List.find?_cons, hgN, decide_True, Option.some.injEq] at hf
      subst hf
      have h1 : N ∉ (rest.flatMap fun f => f.res.results) :=
        fun h => hn.1 (hgN ▸ (results_sublist rest hs').subset h)
      have h2 : N ∉ (rest.flatMap fun f => f.res.emptyFrags) :=
        fun h => hn.1 (hgN ▸ (emptyFrags_sublist rest hs').subset h)
      refine ⟨by simp [hgN], ?_, ?_⟩
      · rw [hg.outcome_failed, List.flatMap_cons, List.mem_append, hgN]
        exact ⟨fun h => h.resolve_right h1, Or.inl⟩
      · rw [hg.outcome_empty, List.flatMap_cons, List.mem_append, hgN]
        exact ⟨fun h => h.resolve_right h2, Or.inl⟩
    · simp only [List.find?_cons, hgN, decide_False] at hf
      obtain ⟨i1, i2, i3⟩ := ih hs' hn.2 hf
      have h1 : N ∉ g.res.results := fun h => hgN (hg.mem_results h).symm
      have h2 : N ∉ g.res.emptyFrags := fun h => hgN (hg.mem_emptyFrags h).symm
      refine ⟨List.mem_cons_of_mem _ i1, ?_, ?_⟩
      · rw [← i2, List.flatMap_cons, List.mem_append]
        exact ⟨fun h => h.resolve_left h1, Or.inr⟩
      · rw [← i3, List.flatMap_cons, List.mem_append]
        exact ⟨fun h => h.resolve_left h2, Or.inr⟩

theorem find_fetch_none (fs : List Fetch) (N : Nat)
    (hf : fs.find? (fun f => f.fragNo = N) = none) : N ∉ fs.map Fetch.fragNo := by
  intro h
  rw [List.find?_eq_none] at hf
  obtain ⟨g, hg, rfl⟩ := List.mem_map.1 h
  exact hf g hg (by simp)

/-! ### Facts about a chain of rounds -/

theorem subperm_nodup {l₁ l₂ : List Nat} (h : l₁.Subperm l₂) (hn : l₂.Nodup) : l₁.Nodup := by
  obtain ⟨l, hp, hs⟩ := h
  exact hp.nodup_iff.1 (hs.nodup hn)

theorem LogChain.head_ok {c : Consts} {env : Env} {T : Nat} {r : RoundRec}
    {older : List RoundRec} (h : LogChain c env T (r :: older)) : RecOK c env older.length r :=
  h.1

theorem LogChain.tail {c : Consts} {env : Env} {T : Nat} {r : RoundRec}
    {older : List RoundRec} (h : LogChain c env T (r :: older)) : LogChain c env T older :=
  h.2.2

theorem arrival_perm (env : Env) (k : Nat) (fs : List Fetch) :
    ((byFinish env k fs).flatMap fun f => f.res.results).Perm
      (fs.flatMap fun f => f.res.results) :=
  (List.perm_insertionSort _ _).flatMap_right _

theorem LogChain.link_eq {c : Consts} {env : Env} {T : Nat} {r r' : RoundRec}
    {older : List RoundRec} (h : LogChain c env T (r :: r' :: older)) :
    r.attempts = (byFinish env older.length r'.fetches).flatMap fun f => f.res.results :=
  h.2.1

theorem LogChain.link {c : Consts} {env : Env} {T : Nat} {r r' : RoundRec}
    {older : List RoundRec} (h : LogChain c env T (r :: r' :: older)) :
    r.attempts.Perm r'.failed := by
  rw [h.link_eq]
  exact arrival_perm env _ _

theorem LogChain.first {c : Consts} {env : Env} {T : Nat} {r : RoundRec}
    (h : LogChain c env T [r]) : r.attempts = List.range' 1 T ∧ r.peerList.length = T :=
  h.2.1

theorem LogChain.subperm {c : Consts} {env : Env} {T : Nat} {log : List RoundRec}
    (h : LogChain c env T log) : ∀ r ∈ log, r.attempts.Subperm (List.range' 1 T) := by
  induction log with
  | nil => simp
  | cons r older ih =>
    intro r0 hr0
    rcases List.mem_cons.1 hr0 with rfl | hmem
    · cases older with
      | nil => rw [h.first.1]
      | cons r' o =>
        have h1 := (results_sublist r'.fetches h.tail.head_ok.shaped).subperm
        exact (h.link.subperm_right).2 (h1.trans (ih h.tail r' (List.mem_cons_self _ _)))
    · exact ih h.tail r0 hmem

theorem LogChain.nodup {c : Consts} {env : Env} {T : Nat} {log : List RoundRec}
    (h : LogChain c env T log) : ∀ r ∈ log, r.attempts.Nodup :=
  fun r hr => subperm_nodup (h.subperm r hr) (List.nodup_range' 1 T)

theorem lastOutcome_cons_some {r : RoundRec} {older : List RoundRec} {N : Nat} {f : Fetch}
    (h : r.fetches.find? (fun f => f.fragNo = N) = some f) :
    lastOutcome (r :: older) N = some f.res.outcome := by
  simp [lastOutcome, h]

theorem lastOutcome_cons_none {r : RoundRec} {older : List RoundRec} {N : Nat}
    (h : r.fetches.find? (fun f => f.fragNo = N) = none) :
    lastOutcome (r :: older) N = lastOutcome older N := by
  simp [lastOutcome, h]

/-- The numbers that failed in the latest round are those whose latest outcome
is `failed`. -/
theorem LogChain.failed_iff {c : Consts} {env : Env} {T : Nat} {older : List RoundRec} :
    ∀ {r : RoundRec}, LogChain c env T (r :: older) →
      ∀ N, N ∈ r.failed ↔ lastOutcome (r :: older) N = some .failed := by
  induction older with
  | nil =>
    intro r h N
    cases hfind : r.fetches.find? (fun f => f.fragNo = N) with
    | some f =>
      rw [lastOutcome_cons_some hfind, Option.some.injEq]
      exact (find_fetch_some r.fetches h.head_ok.shaped
        (h.nodup r (List.mem_cons_self _ _)) N f hfind).2.1
    | none =>
      rw [lastOutcome_cons_none hfind]
      have hN := find_fetch_none r.fetches N hfind
      have : N ∉ r.failed := fun hm => hN ((results_sublist r.fetches h.head_ok.shaped).subset hm)
      simp [lastOutcome, this]
  | cons r' o ih =>
    intro r h N
    cases hfind : r.fetches.find? (fun f => f.fragNo = N) with
    | some f =>
      rw [lastOutcome_cons_some hfind, Option.some.injEq]
      exact (find_fetch_some r.fetches h.head_ok.shaped
        (h.nodup r (List.mem_cons_self _ _)) N f hfind).2.1
    | none =>
      rw [lastOutcome_cons_none hfind]
      have hN : N ∉ r.attempts := find_fetch_none r.fetches N hfind
      have h1 : N ∉ r.failed := fun hm => hN ((results_sublist r.fetches h.head_ok.shaped).subset hm)
      have h2 : lastOutcome (r' :: o) N ≠ some .failed := fun hl =>
        hN (h.link.mem_iff.2 ((ih h.tail N).2 hl))
      exact ⟨fun hm => absurd hm h1, fun hl => absurd hl h2⟩

/-- A number attempted in the latest round never has the latest outcome `empty`
in the rounds before it. -/
theorem LogChain.attempt_not_empty_before {c : Consts} {env : Env} {T : Nat} {r : RoundRec}
    {older : List RoundRec} (h : LogChain c env T (r :: older)) {N : Nat}
    (hN : N ∈ r.attempts) : lastOutcome older N ≠ some .empty := by
  cases older with
  | nil => simp [lastOutcome]
  | cons r' o =>
    have := (h.tail.failed_iff N).1 (h.link.mem_iff.1 hN)
    rw [this]
    simp

/-- The numbers that reported empty in some round are those whose latest
outcome is `empty`. -/
theorem LogChain.empties_iff {c : Consts} {env : Env} {T : Nat} {log : List RoundRec}
    (h : LogChain c env T log) :
    ∀ N, (∃ r ∈ log, N ∈ r.empties) ↔ lastOutcome log N = some .empty := by
  induction log with
  | nil => simp [lastOutcome]
  | cons r older ih =>
    intro N
    have ih' := ih h.tail N
    rw [List.exists_mem_cons_iff]
    cases hfind : r.fetches.find? (fun f => f.fragNo = N) with
    | some f =>
      rw [lastOutcome_cons_some hfind, Option.some.injEq]
      obtain ⟨hatt, _, he⟩ := find_fetch_some r.fetches h.head_ok.shaped
        (h.nodup r (List.mem_cons_self _ _)) N f hfind
      have hb := h.attempt_not_empty_before hatt
      exact ⟨fun hm => hm.elim he.1 fun ho => absurd (ih'.1 ho) hb, fun ho => Or.inl (he.2 ho)⟩
    | none =>
      rw [lastOutcome_cons_none hfind]
      have hN : N ∉ r.attempts := find_fetch_none r.fetches N hfind
      have h1 : N ∉ r.empties :=
        fun hm => hN ((emptyFrags_sublist r.fetches h.head_ok.shaped).subset hm)
      exact ⟨fun hm => hm.elim (fun a => absurd a h1) ih'.1, fun ho => Or.inr (ih'.2 ho)⟩

/-- After the first round exactly the numbers `1..T` have an outcome. -/
theorem LogChain.none_iff {c : Consts} {env : Env} {T : Nat} {older : List RoundRec} :
    ∀ {r : RoundRec}, LogChain c env T (r :: older) →
      ∀ N, lastOutcome (r :: older) N = none ↔ ¬ (1 ≤ N ∧ N ≤ T) := by
  induction older with
  | nil =>
    intro r h N
    cases hfind : r.fetches.find? (fun f => f.fragNo = N) with
    | some f =>
      rw [lastOutcome_cons_some hfind]
      have hatt := (find_fetch_some r.fetches h.head_ok.shaped
        (h.nodup r (List.mem_cons_self _ _)) N f hfind).1
      have := List.mem_range'_1.1 ((h.subperm r (List.mem_cons_self _ _)).subset hatt)
      simp only [reduceCtorEq, false_iff, not_not]
      omega
    | none =>
      rw [lastOutcome_cons_none hfind]
      have hN : N ∉ r.attempts := find_fetch_none r.fetches N hfind
      rw [h.first.1, List.mem_range'_1] at hN
      simp only [lastOutcome, true_iff]
      omega
  | cons r' o ih =>
    intro r h N
    cases hfind : r.fetches.find? (fun f => f.fragNo = N) with
    | some f =>
      rw [lastOutcome_cons_some hfind]
      have hatt := (find_fetch_some r.fetches h.head_ok.shaped
        (h.nodup r (List.mem_cons_self _ _)) N f hfind).1
      have := List.mem_range'_1.1 ((h.subperm r (List.mem_cons_self _ _)).subset hatt)
      simp only [reduceCtorEq, false_iff, not_not]
      omega
    | none =>
      rw [lastOutcome_cons_none hfind]
      exact ih h.tail N

/-- A number that reported empty in a round is in no attempt list of a later
round. -/
theorem LogChain.pairwise {c : Consts} {env : Env} {T : Nat} {log : List RoundRec}
    (h : LogChain c env T log) :
    log.Pairwise fun later earlier => ∀ N ∈ earlier.empties, N ∉ later.attempts := by
  induction log with
  | nil => exact List.Pairwise.nil
  | cons r older ih =>
    refine List.pairwise_cons.2 ⟨fun e he N hN hatt => ?_, ih h.tail⟩
    exact h.attempt_not_empty_before hatt ((h.tail.empties_iff N).1 ⟨e, he, hN⟩)

/-! ### The round loop -/

theorem roundStep_not_running (c : Consts) (env : Env) (s : Session)
    (h : s.phase ≠ .running) : roundStep c env s = s := by
  unfold roundStep
  split
  · contradiction
  · rfl

theorem runRounds_stable (c : Consts) (env : Env) (n k : Nat)
    (h : (runRounds c env n).phase ≠ .running) : runRounds c env (n + k) = runRounds c env n := by
  induction k with
  | zero => rfl
  | succ k ih =>
    show roundStep c env (runRounds c env (n + k)) = _
    rw [ih, roundStep_not_running c env _ h]

/-- The state after a round that launches its fetches. -/
theorem roundStep_launch (c : Consts) (env : Env) (s : Session) (resp : String)
    (hs : s.phase = .running) (hl : env.lookup s.lookups = .line resp)
    (h1 : resp ≠ c.getNoPeer) (h2 : resp ≠ c.getNotOK)
    (h3 : ¬ (goSplit resp c.lsSeparator = [] ∧
      s.failedFragments.getD
        (List.range' 1 (s.totalFragments.getD (goSplit resp c.lsSeparator).length)) ≠ [])) :
    ∃ fetches failed,
      fetches = launch c env s.lookups (goSplit resp c.lsSeparator)
        (s.failedFragments.getD
          (List.range' 1 (s.totalFragments.getD (goSplit resp c.lsSeparator).length))) ∧
      failed = (byFinish env s.lookups fetches).flatMap (fun f => f.res.results) ∧
      (roundStep c env s).phase = (if failed = [] then .finished else .running) ∧
      (roundStep c env s).lookups = s.lookups + 1 ∧
      (roundStep c env s).totalFragments =
        some (s.totalFragments.getD (goSplit resp c.lsSeparator).length) ∧
      (roundStep c env s).filename = (match s.filename with
        | some n => some n
        | none => firstName env s.lookups fetches) ∧
      (roundStep c env s).emptyFragSet =
        s.emptyFragSet ++ (byFinish env s.lookups fetches).flatMap (fun f => f.res.emptyFrags) ∧
      (roundStep c env s).failedFragments = (if failed = [] then none else some failed) ∧
      (roundStep c env s).disk = writeArtifacts s.disk fetches ∧
      (roundStep c env s).log =
        { peerList := goSplit resp c.lsSeparator, fetches := fetches } :: s.log := by
  refine ⟨_, _, rfl, rfl, ?_⟩
  simp only [roundStep, hs, hl, h1, h2, h3, if_false]
  simp

theorem roundStep_abort (c : Consts) (env : Env) (s : Session) (hs : s.phase = .running)
    (h : env.lookup s.lookups = .sendFail ∨ env.lookup s.lookups = .noLine ∨
      env.lookup s.lookups = .line c.getNoPeer ∨ env.lookup s.lookups = .line c.getNotOK) :
    ∃ e, roundStep c env s = { s with phase := .aborted e, lookups := s.lookups + 1 } ∧
      (env.lookup s.lookups = .sendFail → e = .sendFailed) ∧
      (env.lookup s.lookups = .noLine → e = .lostConnection) ∧
      (env.lookup s.lookups = .line c.getNoPeer → e = .noPeerOnline) ∧
      (env.lookup s.lookups = .line c.getNotOK → c.getNoPeer ≠ c.getNotOK →
        e = .fileNotShared) := by
  rcases h with h | h | h | h
  · exact ⟨.sendFailed, by simp [roundStep, hs, h], by simp [h]⟩
  · exact ⟨.lostConnection, by simp [roundStep, hs, h], by simp [h]⟩
  · refine ⟨.noPeerOnline, by simp [roundStep, hs, h], by simp [h]⟩
  · by_cases he : c.getNotOK = c.getNoPeer
    · exact ⟨.noPeerOnline, by simp [roundStep, hs, h, he], by simp [h, he], by simp [h],
        by simp, fun _ hne => absurd he.symm hne⟩
    · exact ⟨.fileNotShared, by simp [roundStep, hs, h, he], by simp [h], by simp [h],
        fun hh => by simp [h] at hh; exact absurd hh he, fun _ _ => rfl⟩

/-! ### The invariant of the round loop -/

theorem SessionInv.chain_total {c : Consts} {env : Env} {n : Nat} {s : Session}
    (inv : SessionInv c env n s) (L : Nat) :
    LogChain c env (s.totalFragments.getD L) s.log := by
  cases hlog : s.log with
  | nil => trivial
  | cons r older =>
    obtain ⟨T, hT⟩ := inv.total (by simp [hlog])
    have := inv.chain
    rw [hT, hlog] at this
    rw [hT]
    exact this

theorem sessionInv_init (c : Consts) (env : Env) : SessionInv c env 0 (Session.init env) where
  count := fun _ => ⟨rfl, rfl⟩
  fresh := fun _ => ⟨rfl, rfl, fun _ => rfl, by simp [Session.init]⟩
  chain := trivial
  total := fun h => absurd rfl h
  empties := fun N => by simp [Session.init]
  pending := fun _ r older h => by simp [Session.init] at h
  done := fun h => by simp [Session.init] at h
  stored := fun N h => by simp [Session.init, lastOutcome] at h

theorem sessionInv_halt {c : Consts} {env : Env} {n : Nat} {s : Session}
    (inv : SessionInv c env n s) (e : GetErr) (k : Nat) (L : Nat) :
    SessionInv c env (n + 1)
      { s with phase := .aborted e, lookups := k,
               totalFragments := some (s.totalFragments.getD L) } ∧
    SessionInv c env (n + 1) { s with phase := .aborted e, lookups := k } := by
  refine ⟨?_, ?_⟩
  · exact {
      count := fun h => by simp at h
      fresh := fun h => ⟨(inv.fresh h).1, (inv.fresh h).2.1, fun h' => by simp at h', by simp⟩
      chain := inv.chain_total L
      total := fun _ => ⟨_, rfl⟩
      empties := inv.empties
      pending := fun h => by simp at h
      done := fun h => by simp at h
      stored := inv.stored }
  · exact {
      count := fun h => by simp at h
      fresh := fun h => ⟨(inv.fresh h).1, (inv.fresh h).2.1, fun h' => by simp at h', by simp⟩
      chain := inv.chain
      total := inv.total
      empties := inv.empties
      pending := fun h => by simp at h
      done := fun h => by simp at h
      stored := inv.stored }

theorem sessionInv_step {c : Consts} {env : Env} {n : Nat} {s : Session}
    (inv : SessionInv c env n s) : SessionInv c env (n + 1) (roundStep c env s) := by
  by_cases hs : s.phase = .running
  swap
  · rw [roundStep_not_running c env s hs]
    exact { inv with count := fun h => absurd h hs }
  have hcount := inv.count hs
  by_cases hab : env.lookup s.lookups = .sendFail ∨ env.lookup s.lookups = .noLine ∨
      env.lookup s.lookups = .line c.getNoPeer ∨ env.lookup s.lookups = .line c.getNotOK
  · obtain ⟨e, he, _⟩ := roundStep_abort c env s hs hab
    rw [he]
    exact (sessionInv_halt inv e _ 0).2
  simp only [not_or] at hab
  obtain ⟨hab1, hab2, hab3, hab4⟩ := hab
  cases hl : env.lookup s.lookups with
  | sendFail => exact absurd hl hab1
  | noLine => exact absurd hl hab2
  | line resp =>
    have h1 : resp ≠ c.getNoPeer := fun e => hab3 (by rw [hl, e])
    have h2 : resp ≠ c.getNotOK := fun e => hab4 (by rw [hl, e])
    by_cases h3 : goSplit resp c.lsSeparator = [] ∧
      s.failedFragments.getD
        (List.range' 1 (s.totalFragments.getD (goSplit resp c.lsSeparator).length)) ≠ []
    · have : roundStep c env s =
          { s with
            phase := .aborted .crash
            lookups := s.lookups + 1
            totalFragments := some (s.totalFragments.getD (goSplit resp c.lsSeparator).length) } := by
        simp only [roundStep, hs, hl, h1, h2, if_false]
        rw [if_pos h3]
      rw [this]
      exact (sessionInv_halt inv .crash _ _).1
    · obtain ⟨fetches, failed, hf, hfl, hphase, hlook, htot, -, hemp, hfailed, hdisk, hlog⟩ :=
        roundStep_launch c env s resp hs hl h1 h2 h3
      have hatt : fetches.map Fetch.fragNo = s.failedFragments.getD
          (List.range' 1 (s.totalFragments.getD (goSplit resp c.lsSeparator).length)) := by
        rw [hf, launch_attempts]
      have hpf : failed.Perm (fetches.flatMap fun f => f.res.results) := by
        rw [hfl]; exact (List.perm_insertionSort _ _).flatMap_right _
      have hpe : ((byFinish env s.lookups fetches).flatMap fun f => f.res.emptyFrags).Perm
          (fetches.flatMap fun f => f.res.emptyFrags) :=
        (List.perm_insertionSort _ _).flatMap_right _
      refine {
        count := fun _ => ⟨by rw [hlook, hcount.1], by rw [hlog, List.length_cons, hcount.2]⟩
        fresh := fun h => by rw [hlog] at h; exact absurd h (List.cons_ne_nil _ _)
        chain := ?_
        total := fun _ => ⟨_, htot⟩
        empties := fun N => ?_
        pending := fun hrun r older hro => ?_
        done := fun hfin r older hro => ?_
        stored := fun N hN => ?_ }
      · rw [hlog, htot, Option.getD_some]
        refine ⟨⟨resp, ?_, rfl, ?_, ?_⟩, ?_, inv.chain_total _⟩
        · rw [hcount.2, ← hcount.1]; exact hl
        · intro hpl
          show fetches.map Fetch.fragNo = []
          rw [hatt]
          by_contra hne
          exact h3 ⟨hpl, hne⟩
        · show fetches = launch c env s.log.length _ (fetches.map Fetch.fragNo)
          rw [hatt, hcount.2, ← hcount.1]; exact hf
        · cases hlog0 : s.log with
          | nil =>
            obtain ⟨-, hff, htn, -⟩ := inv.fresh hlog0
            have hT := htn hs
            refine ⟨?_, ?_⟩
            · show fetches.map Fetch.fragNo = _
              rw [hatt, hff, hT]; rfl
            · rw [hT]; rfl
          | cons r' o =>
            obtain ⟨l, hl1, hl2⟩ := inv.pending hs r' o hlog0
            show fetches.map Fetch.fragNo = _
            rw [hatt, hl1]; exact hl2
      · rw [hemp, hlog, List.mem_append, List.exists_mem_cons_iff, inv.empties N, hpe.mem_iff]
        exact or_comm
      · rw [hlog] at hro
        obtain ⟨rfl, rfl⟩ := List.cons.inj hro
        by_cases hfe : failed = []
        · rw [hphase, if_pos hfe] at hrun; cases hrun
        · refine ⟨failed, by rw [hfailed, if_neg hfe], ?_⟩
          rw [hcount.2, ← hcount.1]; exact hfl
      · rw [hlog] at hro
        obtain ⟨rfl, -⟩ := List.cons.inj hro
        by_cases hfe : failed = []
        · rw [hfe] at hpf
          exact List.perm_nil.1 hpf.symm
        · rw [hphase, if_neg hfe] at hfin; cases hfin
      · rw [hdisk]
        rw [hlog] at hN
        cases hfind : fetches.find? (fun f => f.fragNo = N) with
        | some f =>
          have hmem := List.mem_of_find?_eq_some hfind
          have hfN : f.fragNo = N := by simpa using List.find?_some hfind
          rw [lastOutcome_cons_some hfind, Option.some.injEq] at hN
          have hres : f.res = downloadFragment c (env.fetch s.lookups f.peer f.fragNo) f.fragNo := by
            rw [hf] at hmem
            exact launch_res c env _ _ _ f hmem
          rw [hres] at hN
          have hsaved := downloadFragment_saved c _ _ hN
          rw [← hres] at hsaved
          rw [← hfN]
          exact writeArtifacts_written fetches s.disk f hmem hsaved
        | none =>
          rw [lastOutcome_cons_none hfind] at hN
          exact writeArtifacts_keeps fetches s.disk N (inv.stored N hN)

theorem sessionInv_run (c : Consts) (env : Env) :
    ∀ n, SessionInv c env n (runRounds c env n)
  | 0 => sessionInv_init c env
  | n + 1 => sessionInv_step (sessionInv_run c env n)

/-! ### Rounds by position -/

theorem getElem?_reverse_some {α : Type} {l : List α} {k : Nat} {a : α}
    (h : l.reverse[k]? = some a) : k < l.length ∧ l[l.length - 1 - k]? = some a := by
  have hk : k < l.length := by
    obtain ⟨hk, -⟩ := List.getElem?_eq_some.1 h
    simpa using hk
  exact ⟨hk, by rw [← List.getElem?_reverse hk]; exact h⟩

theorem LogChain.recOK_at {c : Consts} {env : Env} {T : Nat} {log : List RoundRec}
    (h : LogChain c env T log) :
    ∀ j r, log[j]? = some r → RecOK c env (log.length - 1 - j) r := by
  induction log with
  | nil => intro j r hr; simp at hr
  | cons r0 older ih =>
    intro j r hr
    cases j with
    | zero =>
      simp only [List.getElem?_cons_zero, Option.some.injEq] at hr
      subst hr
      simpa using h.head_ok
    | succ j =>
      rw [List.getElem?_cons_succ] at hr
      have e : (r0 :: older).length - 1 - (j + 1) = older.length - 1 - j := by
        simp only [List.length_cons]; omega
      rw [e]
      exact ih h.tail j r hr

theorem LogChain.link_eq_at {c : Consts} {env : Env} {T : Nat} {log : List RoundRec}
    (h : LogChain c env T log) :
    ∀ j rj ri, log[j]? = some rj → log[j + 1]? = some ri →
      rj.attempts = (byFinish env (log.length - 2 - j) ri.fetches).flatMap
        fun f => f.res.results := by
  induction log with
  | nil => intro j rj ri hj; simp at hj
  | cons r0 older ih =>
    intro j rj ri hj hi
    rw [List.getElem?_cons_succ] at hi
    cases j with
    | zero =>
      simp only [List.getElem?_cons_zero, Option.some.injEq] at hj
      subst hj
      cases older with
      | nil => simp at hi
      | cons r' o =>
        simp only [List.getElem?_cons_zero, Option.some.injEq] at hi
        subst hi
        simpa using h.link_eq
    | succ j =>
      rw [List.getElem?_cons_succ] at hj
      have hlt : j + 1 < older.length := by
        obtain ⟨hlt, -⟩ := List.getElem?_eq_some.1 hi
        exact hlt
      have e : (r0 :: older).length - 2 - (j + 1) = older.length - 2 - j := by
        simp only [List.length_cons]; omega
      rw [e]
      exact ih h.tail j rj ri hj hi

theorem LogChain.link_at {c : Consts} {env : Env} {T : Nat} {log : List RoundRec}
    (h : LogChain c env T log) :
    ∀ j rj ri, log[j]? = some rj → log[j + 1]? = some ri → rj.attempts.Perm ri.failed := by
  induction log with
  | nil => intro j rj ri hj; simp at hj
  | cons r0 older ih =>
    intro j rj ri hj hi
    rw [List.getElem?_cons_succ] at hi
    cases j with
    | zero =>
      simp only [List.getElem?_cons_zero, Option.some.injEq] at hj
      subst hj
      cases older with
      | nil => simp at hi
      | cons r' o =>
        simp only [List.getElem?_cons_zero, Option.some.injEq] at hi
        subst hi
        exact h.link
    | succ j =>
      rw [List.getElem?_cons_succ] at hj
      exact ih h.tail j rj ri hj hi

theorem LogChain.first_at {c : Consts} {env : Env} {T : Nat} {log : List RoundRec}
    (h : LogChain c env T log) :
    ∀ j r, log[j]? = some r → j + 1 = log.length →
      r.attempts = List.range' 1 T ∧ r.peerList.length = T := by
  induction log with
  | nil => intro j r hr; simp at hr
  | cons r0 older ih =>
    intro j r hr hlen
    cases j with
    | zero =>
      simp only [List.getElem?_cons_zero, Option.some.injEq] at hr
      subst hr
      have : older = [] := List.length_eq_zero.1 (by simp only [List.length_cons] at hlen; omega)
      subst this
      exact h.first
    | succ j =>
      rw [List.getElem?_cons_succ] at hr
      exact ih h.tail j r hr (by simp only [List.length_cons] at hlen; omega)

theorem SessionInv.chainT {c : Consts} {env : Env} {n : Nat} {s : Session}
    (inv : SessionInv c env n s) {T : Nat} (hT : s.totalFragments = some T) :
    LogChain c env T s.log := by
  have := inv.chain
  rwa [hT] at this

/-! ### Properties of the round loop -/

/-- The log after a finished round loop: it is a chain for `totalFragments`,
nothing failed in its latest round, and the empty set holds the numbers whose
latest outcome is `empty`. -/
theorem finished_log (c : Consts) (env : Env) (n : Nat)
    (hfin : (runRounds c env n).phase = .finished) :
    ∃ r older T, (runRounds c env n).log = r :: older ∧
      (runRounds c env n).totalFragments = some T ∧ LogChain c env T (r :: older) ∧
      (∀ N, lastOutcome (r :: older) N ≠ some .failed) ∧
      (∀ N, N ∈ (runRounds c env n).emptyFragSet ↔
        lastOutcome (r :: older) N = some .empty) := by
  have inv := sessionInv_run c env n
  cases hlog : (runRounds c env n).log with
  | nil => exact absurd hfin (inv.fresh hlog).2.2.2
  | cons r older =>
    obtain ⟨T, hT⟩ := inv.total (by simp [hlog])
    have ch : LogChain c env T (r :: older) := hlog ▸ inv.chainT hT
    have hfailed : r.failed = [] := inv.done hfin r older hlog
    refine ⟨r, older, T, rfl, hT, ch, fun N hN => ?_, fun N => ?_⟩
    · have := (ch.failed_iff N).2 hN
      rw [hfailed] at this
      simp at this
    · rw [inv.empties N, hlog]; exact ch.empties_iff N

/-- After a finished round loop every number of `1..T` is downloaded or in the
empty set. -/
theorem finished_covered (c : Consts) (env : Env) (n T : Nat)
    (hfin : (runRounds c env n).phase = .finished)
    (hT : (runRounds c env n).totalFragments = some T) :
    ∀ N, 1 ≤ N → N ≤ T →
      lastOutcome (runRounds c env n).log N = some .downloaded ∨
        N ∈ (runRounds c env n).emptyFragSet := by
  obtain ⟨r, older, T', hlog, hT', ch, hnf, hemp⟩ := finished_log c env n hfin
  have hTT : T' = T := by rw [hT] at hT'; exact (Option.some.inj hT').symm
  subst hTT
  intro N h1 h2
  rw [hemp, hlog]
  have hnone : lastOutcome (r :: older) N ≠ none := fun e => (ch.none_iff N).1 e ⟨h1, h2⟩
  have := hnf N
  cases ho : lastOutcome (r :: older) N with
  | none => exact absurd ho hnone
  | some o => cases o <;> simp_all

/-- C3: when the round loop of `Get` has terminated, the fragment numbers whose
latest outcome is `downloaded` and the numbers in the empty set are disjoint and
together are exactly `1..totalFragments`, and `totalFragments` is the length of
the peer list of the first lookup. -/
theorem Get_outcomes_partition (c : Consts) (env : Env) (n : Nat)
    (hfin : (runRounds c env n).phase = .finished) :
    ∃ T resp, env.lookup 0 = .line resp ∧ T = (goSplit resp c.lsSeparator).length ∧
      (runRounds c env n).totalFragments = some T ∧
      (∀ N, (lastOutcome (runRounds c env n).log N = some .downloaded ∨
          N ∈ (runRounds c env n).emptyFragSet) ↔ (1 ≤ N ∧ N ≤ T)) ∧
      (∀ N, ¬ (lastOutcome (runRounds c env n).log N = some .downloaded ∧
          N ∈ (runRounds c env n).emptyFragSet)) := by
  obtain ⟨r, older, T, hlog, hT, ch, hnf, hemp⟩ := finished_log c env n hfin
  have hlast : (r :: older)[older.length]? = some ((r :: older)[older.length]) :=
    List.getElem?_eq_getElem (by simp)
  obtain ⟨resp, hresp, hpl, -, -⟩ := ch.recOK_at _ _ hlast
  have hfirst := (ch.first_at _ _ hlast (by simp)).2
  simp only [List.length_cons, Nat.add_sub_cancel, Nat.sub_self] at hresp
  refine ⟨T, resp, hresp, by rw [← hfirst, hpl], hT, fun N => ?_, fun N => ?_⟩
  · rw [hemp, hlog, ← not_iff_not, ← ch.none_iff N]
    have := hnf N
    cases ho : lastOutcome (r :: older) N with
    | none => simp
    | some o => cases o <;> simp_all
  · rw [hemp, hlog]
    rintro ⟨h1, h2⟩
    rw [h1] at h2
    cases h2

/-- C5: a fragment number that reports empty in a round is in the attempt list
of no later round; the attempt list of a round that follows another consists of
exactly the numbers that reported failed in that one; and no fetch sends on both
channels. Rounds are counted from 0 in the order in which they ran. -/
theorem Get_empty_never_reattempted (c : Consts) (env : Env) (n : Nat) :
    (∀ (i j : Nat) (ri rj : RoundRec), i < j → (runRounds c env n).log.reverse[i]? = some ri →
      (runRounds c env n).log.reverse[j]? = some rj →
      ∀ N, N ∈ ri.empties → N ∉ rj.attempts) ∧
    (∀ (i : Nat) (ri rj : RoundRec), (runRounds c env n).log.reverse[i]? = some ri →
      (runRounds c env n).log.reverse[i + 1]? = some rj →
      ∀ N, N ∈ rj.attempts ↔ N ∈ ri.failed) ∧
    (∀ r ∈ (runRounds c env n).log, ∀ f ∈ r.fetches,
      f.res.results = [] ∨ f.res.emptyFrags = []) := by
  have inv := sessionInv_run c env n
  refine ⟨fun i j ri rj hij hi hj N hN => ?_, fun i ri rj hi hj N => ?_, fun r hr f hf => ?_⟩
  · have hp := List.pairwise_reverse.2 inv.chain.pairwise
    obtain ⟨hi', rfl⟩ := List.getElem?_eq_some.1 hi
    obtain ⟨hj', rfl⟩ := List.getElem?_eq_some.1 hj
    exact List.pairwise_iff_getElem.1 hp i j hi' hj' hij N hN
  · obtain ⟨hi1, hi2⟩ := getElem?_reverse_some hi
    obtain ⟨hj1, hj2⟩ := getElem?_reverse_some hj
    have e : (runRounds c env n).log.length - 1 - i =
        (runRounds c env n).log.length - 1 - (i + 1) + 1 := by omega
    rw [e] at hi2
    exact (inv.chain.link_at _ rj ri hj2 hi2).mem_iff
  · obtain ⟨j, hj, rfl⟩ := List.mem_iff_getElem.1 hr
    exact ((inv.chain.recOK_at j _ (List.getElem?_eq_getElem hj)).shaped f hf).exclusive

/-- C10: in every round the attempt list has no duplicates, lies within
`1..totalFragments` and is no longer than `totalFragments`; every fetch sends at
most one value on the two channels together; so the number of values on each
channel stays within its capacity `totalFragments`. -/
theorem Get_channels_within_capacity (c : Consts) (env : Env) (n : Nat) :
    ∀ r ∈ (runRounds c env n).log, ∃ T, (runRounds c env n).totalFragments = some T ∧
      r.attempts.Nodup ∧ (∀ N ∈ r.attempts, 1 ≤ N ∧ N ≤ T) ∧ r.attempts.length ≤ T ∧
      (∀ f ∈ r.fetches, f.res.results.length + f.res.emptyFrags.length ≤ 1) ∧
      r.failed.length ≤ T ∧ r.empties.length ≤ T := by
  intro r hr
  have inv := sessionInv_run c env n
  obtain ⟨T, hT⟩ := inv.total (List.ne_nil_of_mem hr)
  have ch := inv.chainT hT
  have hsub := ch.subperm r hr
  have hlen : r.attempts.length ≤ T := by simpa using hsub.length_le
  obtain ⟨j, hj, rfl⟩ := List.mem_iff_getElem.1 hr
  have hshape := (ch.recOK_at j _ (List.getElem?_eq_getElem hj)).shaped
  refine ⟨T, hT, ch.nodup _ hr, fun N hN => ?_, hlen, fun f hf => (hshape f hf).sends_le_one,
    ?_, ?_⟩
  · have := List.mem_range'_1.1 (hsub.subset hN)
    omega
  · exact le_trans (results_sublist _ hshape).length_le (by simpa [RoundRec.attempts] using hlen)
  · exact le_trans (emptyFrags_sublist _ hshape).length_le
      (by simpa [RoundRec.attempts] using hlen)

/-- C2 (as the code has it): in round `k` the fragment number at position `i` of
the attempt list is fetched from the peer at position `i mod L` of the peer list
that the lookup of round `k` returned, `L` being its length. The attempt list of
the first round is `1..totalFragments` in ascending order, so there fragment `N`
is fetched from position `(N - 1) mod L`; the attempt list of a later round is
the list of the values that the round before it sent on `results`, in the order
in which they arrived. -/
theorem Get_peer_by_position (c : Consts) (env : Env) (n k : Nat) (r : RoundRec)
    (hr : (runRounds c env n).log.reverse[k]? = some r) :
    ∃ resp, env.lookup k = .line resp ∧ r.peerList = goSplit resp c.lsSeparator ∧
      (k = 0 → ∃ T, (runRounds c env n).totalFragments = some T ∧
        r.attempts = List.range' 1 T) ∧
      (∀ (j : Nat) (prev : RoundRec), k = j + 1 →
        (runRounds c env n).log.reverse[j]? = some prev →
        r.attempts = (byFinish env j prev.fetches).flatMap fun f => f.res.results) ∧
      ∀ (i : Nat) (f : Fetch), r.fetches[i]? = some f →
        r.attempts[i]? = some f.fragNo ∧ f.slot = i ∧
        r.peerList[i % r.peerList.length]? = some f.peer ∧
        f.res = downloadFragment c (env.fetch k f.peer f.fragNo) f.fragNo ∧
        (k = 0 → f.fragNo = i + 1 ∧
          r.peerList[(f.fragNo - 1) % r.peerList.length]? = some f.peer) := by
  have inv := sessionInv_run c env n
  obtain ⟨hk, hr'⟩ := getElem?_reverse_some hr
  have hok := inv.chain.recOK_at _ r hr'
  have hkk : (runRounds c env n).log.length - 1 - ((runRounds c env n).log.length - 1 - k) = k := by
    omega
  rw [hkk] at hok
  obtain ⟨resp, hresp, hpl, hnil, hfet⟩ := hok
  obtain ⟨T, hT⟩ := inv.total (List.ne_nil_of_length_pos (by omega))
  have hfirst : k = 0 → r.attempts = List.range' 1 T := fun hk0 =>
    ((inv.chainT hT).first_at _ r hr' (by omega)).1
  refine ⟨resp, hresp, hpl, fun hk0 => ⟨T, hT, hfirst hk0⟩, fun j prev hkj hprev => ?_,
    fun i f hf => ?_⟩
  · obtain ⟨-, hprev'⟩ := getElem?_reverse_some hprev
    have e1 : (runRounds c env n).log.length - 1 - j =
        (runRounds c env n).log.length - 1 - k + 1 := by omega
    rw [e1] at hprev'
    have := inv.chain.link_eq_at _ r prev hr' hprev'
    have e2 : (runRounds c env n).log.length - 2 - ((runRounds c env n).log.length - 1 - k) = j := by
      omega
    rw [e2] at this
    exact this
  · have hf' := hf
    rw [hfet] at hf'
    obtain ⟨h1, h2, h3, h4⟩ := launch_getElem? c env k _ _ i f hf'
    have hne : r.peerList ≠ [] := fun e => by
      rw [hnil e] at h1
      simp at h1
    have hpos : 0 < r.peerList.length := List.length_pos.2 hne
    have hpeer : r.peerList[i % r.peerList.length]? = some f.peer := by
      rw [h3, List.getD_eq_getElem?_getD, List.getElem?_eq_getElem (Nat.mod_lt _ hpos)]
      rfl
    refine ⟨h1, h2, hpeer, h4, fun hk0 => ?_⟩
    rw [hfirst hk0] at h1
    have hi : i < T := by
      by_contra hge
      rw [List.getElem?_eq_none (by simp; omega)] at h1
      cases h1
    rw [List.getElem?_range' 1 1 hi] at h1
    have hN : f.fragNo = i + 1 := by
      simp only [Option.some.injEq] at h1
      omega
    refine ⟨hN, ?_⟩
    rw [hN, Nat.add_sub_cancel]
    exact hpeer

/-! ### Reassembly -/

theorem writeThrough_other (dest : Option Nat) (disk : Nat → Option Bytes) (file : Bytes)
    (N : Nat) (h : dest ≠ some N) : writeThrough dest disk file N = disk N := by
  unfold writeThrough
  cases dest with
  | none => rfl
  | some k =>
    have hk : N ≠ k := fun e => h (by rw [e])
    simp only
    split
    · exact Function.update_noteq hk _ _
    · rfl

theorem createDest_other (dest : Option Nat) (disk : Nat → Option Bytes)
    (N : Nat) (h : dest ≠ some N) : createDest dest disk N = disk N := by
  unfold createDest
  cases dest with
  | none => rfl
  | some k =>
    have hk : N ≠ k := fun e => h (by rw [e])
    exact Function.update_noteq hk _ _

/-- When every artifact that is needed exists and the destination is none of
them, the merge loop does not fail and writes the artifacts of the numbers
outside the empty set in the order of the list. -/
theorem mergeLoop_spec (es : List Nat) (dest : Option Nat) :
    ∀ (l : List Nat) (disk : Nat → Option Bytes) (file : Bytes), l.Nodup →
      (∀ N ∈ l, N ∉ es → (disk N).isSome) →
      (∀ k, dest = some k → k ∈ es ∨ k ∉ l) →
      (mergeLoop es dest l disk file).1 = none ∧
      (mergeLoop es dest l disk file).2.2 =
        file ++ l.flatMap fun N => if N ∈ es then [] else (disk N).getD [] := by
  intro l
  induction l with
  | nil => intro disk file _ _ _; simp [mergeLoop]
  | cons i rest ih =>
    intro disk file hn hd hdest
    obtain ⟨hi, hrest⟩ := List.nodup_cons.1 hn
    have hdest' : ∀ k, dest = some k → k ∈ es ∨ k ∉ rest := fun k hk =>
      (hdest k hk).imp id fun h hm => h (List.mem_cons_of_mem _ hm)
    by_cases hie : i ∈ es
    · obtain ⟨h1, h2⟩ := ih disk file hrest
        (fun N hN => hd N (List.mem_cons_of_mem _ hN)) hdest'
      rw [mergeLoop, if_pos hie]
      refine ⟨h1, ?_⟩
      rw [h2]
      simp [List.flatMap_cons, hie]
    · obtain ⟨b, hb⟩ := Option.isSome_iff_exists.1 (hd i (List.mem_cons_self _ _) hie)
      have hdi : dest ≠ some i := fun e =>
        (hdest i e).elim hie fun h => h (List.mem_cons_self _ _)
      have hsame : ∀ N ∈ rest, N ∉ es →
          Function.update (writeThrough dest disk (file ++ b)) i none N = disk N := by
        intro N hN hNe
        have hNi : N ≠ i := fun e => hi (e ▸ hN)
        have hdN : dest ≠ some N := fun e => (hdest' N e).elim hNe fun h => h hN
        rw [Function.update_noteq hNi, writeThrough_other dest disk _ N hdN]
      obtain ⟨h1, h2⟩ := ih (Function.update (writeThrough dest disk (file ++ b)) i none)
        (file ++ b) hrest
        (fun N hN hNe => by
          rw [hsame N hN hNe]; exact hd N (List.mem_cons_of_mem _ hN) hNe) hdest'
      have hstep : mergeLoop es dest (i :: rest) disk file =
          mergeLoop es dest rest
            (Function.update (writeThrough dest disk (file ++ b)) i none) (file ++ b) := by
        rw [mergeLoop, if_neg hie]
        simp only [hb]
        rw [if_neg fun h => hdi h.1]
      rw [hstep]
      refine ⟨h1, ?_⟩
      rw [h2]
      have hcongr : (rest.flatMap fun N => if N ∈ es then []
            else (Function.update (writeThrough dest disk (file ++ b)) i none N).getD [])
          = rest.flatMap fun N => if N ∈ es then [] else (disk N).getD [] :=
        List.flatMap_congr fun N hN => by
          by_cases hNe : N ∈ es
          · simp [hNe]
          · simp only [hNe, if_false]; rw [hsame N hN hNe]
      simp [List.flatMap_cons, hie, hb, hcongr]

/-- The round loop stops with one of its own errors only. -/
theorem runRounds_abort_kind (c : Consts) (env : Env) :
    ∀ n e, (runRounds c env n).phase = .aborted e →
      e = .sendFailed ∨ e = .lostConnection ∨ e = .noPeerOnline ∨ e = .fileNotShared ∨
        e = .crash := by
  intro n
  induction n with
  | zero => intro e h; simp [runRounds, Session.init] at h
  | succ n ih =>
    intro e h
    by_cases hs : (runRounds c env n).phase = .running
    · simp only [runRounds, roundStep, hs] at h
      revert h
      repeat' split
      all_goals intro h; simp at h
      all_goals (subst h; simp)
    · rw [runRounds, roundStep_not_running c env _ hs] at h
      exact ih e h

/-- What `Get` returns once the round loop has finished with a non-empty
filename whose destination is not the artifact of a fragment that is merged. -/
theorem Get_finished (c : Consts) (env : Env) (n T : Nat) (name : Bytes)
    (hfin : (runRounds c env n).phase = .finished)
    (hT : (runRounds c env n).totalFragments = some T)
    (hname : (runRounds c env n).filename = some name) (hne : name ≠ [])
    (hdest : ∀ k, env.destAlias name = some k →
      k ∈ (runRounds c env n).emptyFragSet ∨ ¬ (1 ≤ k ∧ k ≤ T)) :
    ∃ out, Get c env n = some out ∧ out.sess = runRounds c env n ∧
      (out.err = none ∨ out.err = some .shareFailed) ∧
      out.received = some ("received/".toList ++ name,
        (List.range' 1 T).flatMap fun N =>
          if N ∈ (runRounds c env n).emptyFragSet then []
          else ((runRounds c env n).disk N).getD []) := by
  have inv := sessionInv_run c env n
  have hdest' : ∀ k, env.destAlias name = some k →
      k ∈ (runRounds c env n).emptyFragSet ∨ k ∉ List.range' 1 T := fun k hk =>
    (hdest k hk).imp id fun h hm => h (by have := List.mem_range'_1.1 hm; omega)
  have hsame : ∀ N ∈ List.range' 1 T, N ∉ (runRounds c env n).emptyFragSet →
      createDest (env.destAlias name) (runRounds c env n).disk N = (runRounds c env n).disk N :=
    fun N hN hNe => createDest_other _ _ N fun e => (hdest' N e).elim hNe fun h => h hN
  have hd : ∀ N ∈ List.range' 1 T, N ∉ (runRounds c env n).emptyFragSet →
      (createDest (env.destAlias name) (runRounds c env n).disk N).isSome := fun N hN hNe => by
    rw [hsame N hN hNe]
    have hr := List.mem_range'_1.1 hN
    rcases finished_covered c env n T hfin hT N hr.1 (by omega) with h | h
    · exact inv.stored N h
    · exact absurd h hNe
  obtain ⟨hm1, hm2⟩ := mergeLoop_spec (runRounds c env n).emptyFragSet (env.destAlias name)
    (List.range' 1 T) (createDest (env.destAlias name) (runRounds c env n).disk) []
    (List.nodup_range' 1 T) hd hdest'
  have hbytes : ((List.range' 1 T).flatMap fun N =>
      if N ∈ (runRounds c env n).emptyFragSet then []
      else (createDest (env.destAlias name) (runRounds c env n).disk N).getD [])
      = (List.range' 1 T).flatMap fun N =>
        if N ∈ (runRounds c env n).emptyFragSet then []
        else ((runRounds c env n).disk N).getD [] :=
    List.flatMap_congr fun N hN => by
      by_cases hNe : N ∈ (runRounds c env n).emptyFragSet
      · simp [hNe]
      · simp only [hNe, if_false]; rw [hsame N hN hNe]
  rw [List.nil_append, hbytes] at hm2
  simp only [Get, hfin, hname, hT, Option.getD_some, hne, if_false, hm1, hm2]
  cases env.share <;> simp

/-- A finished round loop with a non-empty filename, whose destination is not
the artifact of a fragment that is merged, always leads to a reassembled
file. -/
theorem Get_completes (c : Consts) (env : Env) (n T : Nat) (name : Bytes)
    (hfin : (runRounds c env n).phase = .finished)
    (hT : (runRounds c env n).totalFragments = some T)
    (hname : (runRounds c env n).filename = some name) (hne : name ≠ [])
    (hdest : ∀ k, env.destAlias name = some k →
      k ∈ (runRounds c env n).emptyFragSet ∨ ¬ (1 ≤ k ∧ k ≤ T)) :
    ∃ out, Get c env n = some out ∧ (out.err = none ∨ out.err = some .shareFailed) ∧
      out.received.isSome := by
  obtain ⟨out, h1, -, h3, h4⟩ := Get_finished c env n T name hfin hT hname hne hdest
  exact ⟨out, h1, h3, by rw [h4]; rfl⟩

/-- The result of `Get` does not depend on the fuel once there is one. -/
theorem Get_fuel_mono (c : Consts) (env : Env) (n k : Nat) (out : Outcome)
    (h : Get c env n = some out) : Get c env (n + k) = some out := by
  have hs : (runRounds c env n).phase ≠ .running := fun e => by simp [Get, e] at h
  simpa only [Get, runRounds_stable c env n k hs] using h

/-! ### Properties of `Get` as a whole -/

/-- The session reported by `Get` is the state at the end of the round loop. -/
theorem Get_sess (c : Consts) (env : Env) (fuel : Nat) (out : Outcome)
    (h : Get c env fuel = some out) : out.sess = runRounds c env fuel := by
  unfold Get at h
  simp only at h
  repeat' split at h
  all_goals first
    | (simp only [Option.some.injEq] at h; subst h; rfl)
    | (simp at h)

/-- C1 (as the code has it): when `Get` has reassembled the file without error
and the destination path `received/<filename>` is not the path of the artifact
of a fragment in `1..totalFragments` outside the empty set, the bytes written to
the destination file are the concatenation, for `N = 1..totalFragments` in
ascending order, of the artifact of fragment `N` as the round loop left it when
`N` is not in the empty set, and of nothing when it is; all those artifacts
exist. -/
theorem Get_reassembled_bytes (c : Consts) (env : Env) (fuel : Nat) (out : Outcome)
    (h : Get c env fuel = some out) (hok : out.err = none ∨ out.err = some .shareFailed)
    (hdest : ∀ k, env.destAlias (out.sess.filename.getD []) = some k →
      k ∈ out.sess.emptyFragSet ∨ ¬ (1 ≤ k ∧ k ≤ out.sess.totalFragments.getD 0)) :
    ∃ T name, out.sess = runRounds c env fuel ∧ out.sess.phase = .finished ∧
      out.sess.totalFragments = some T ∧ out.sess.filename = some name ∧ name ≠ [] ∧
      out.received = some ("received/".toList ++ name,
        (List.range' 1 T).flatMap fun N =>
          if N ∈ out.sess.emptyFragSet then [] else (out.sess.disk N).getD []) ∧
      (∀ N, 1 ≤ N → N ≤ T → N ∉ out.sess.emptyFragSet → ∃ b, out.sess.disk N = some b) := by
  have inv := sessionInv_run c env fuel
  have hsess := Get_sess c env fuel out h
  rw [hsess] at hdest ⊢
  cases hph : (runRounds c env fuel).phase with
  | running => simp [Get, hph] at h
  | aborted e =>
    have hk := runRounds_abort_kind c env fuel e hph
    simp only [Get, hph, Option.some.injEq] at h
    subst h
    rcases hok with h1 | h1
    · simp at h1
    · simp only [Option.some.injEq] at h1
      subst h1
      simp at hk
  | finished =>
    obtain ⟨_, _, T, _, hT, _, _, _⟩ := finished_log c env fuel hph
    by_cases hn : (runRounds c env fuel).filename.getD [] = []
    · simp only [Get, hph, hn, if_true, Option.some.injEq] at h
      subst h
      rcases hok with h1 | h1 <;> simp at h1
    · cases hname : (runRounds c env fuel).filename with
      | none => simp [hname] at hn
      | some name =>
        rw [hname, Option.getD_some] at hn hdest
        rw [hT, Option.getD_some] at hdest
        obtain ⟨out', h1, -, -, h4⟩ := Get_finished c env fuel T name hph hT hname hn hdest
        rw [h, Option.some.injEq] at h1
        subst h1
        refine ⟨T, name, rfl, rfl, hT, rfl, hn, h4, fun N h1 h2 hNe => ?_⟩
        rcases finished_covered c env fuel T hph hT N h1 h2 with hd | hd
        · exact Option.isSome_iff_exists.1 (inv.stored N hd)
        · exact absurd hd hNe

/-- C4: when the round loop is still running after `r` rounds and the tracker
then answers with the no-peer token, with the not-shared token, or with no line
at all, `Get` returns the matching error for every larger fuel; the log still
has the `r` earlier rounds only (no fetch is launched), `r + 1` lookup requests
have been sent in all, no destination file exists and the artifacts are as they
were. The no-peer token is compared first, so the not-shared case is the one
of a token different from it. -/
theorem Get_lookup_errors (c : Consts) (env : Env) (r fuel : Nat) (e : GetErr)
    (hrun : (runRounds c env r).phase = .running) (hfuel : r < fuel)
    (hcase : (env.lookup r = .line c.getNoPeer ∧ e = .noPeerOnline) ∨
      (env.lookup r = .line c.getNotOK ∧ c.getNoPeer ≠ c.getNotOK ∧ e = .fileNotShared) ∨
      (env.lookup r = .noLine ∧ e = .lostConnection)) :
    ∃ out, Get c env fuel = some out ∧ out.err = some e ∧ out.received = none ∧
      out.sess.log = (runRounds c env r).log ∧ out.sess.log.length = r ∧
      out.sess.lookups = r + 1 ∧ out.disk = (runRounds c env r).disk := by
  have inv := sessionInv_run c env r
  obtain ⟨hlk, hlen⟩ := inv.count hrun
  have hab : env.lookup (runRounds c env r).lookups = .sendFail ∨
      env.lookup (runRounds c env r).lookups = .noLine ∨
      env.lookup (runRounds c env r).lookups = .line c.getNoPeer ∨
      env.lookup (runRounds c env r).lookups = .line c.getNotOK := by
    rw [hlk]
    rcases hcase with ⟨h, -⟩ | ⟨h, -, -⟩ | ⟨h, -⟩
    · exact Or.inr (Or.inr (Or.inl h))
    · exact Or.inr (Or.inr (Or.inr h))
    · exact Or.inr (Or.inl h)
  obtain ⟨e', he', -, h2, h3, h4⟩ := roundStep_abort c env _ hrun hab
  rw [hlk] at h2 h3 h4
  have hee : e' = e := by
    rcases hcase with ⟨h, rfl⟩ | ⟨h, hne, rfl⟩ | ⟨h, rfl⟩
    · exact h3 h
    · exact h4 h hne
    · exact h2 h
  subst hee
  have hstep : runRounds c env (r + 1) =
      { runRounds c env r with phase := .aborted e', lookups := (runRounds c env r).lookups + 1 } :=
    he'
  obtain ⟨k, rfl⟩ : ∃ k, fuel = r + 1 + k := ⟨fuel - (r + 1), by omega⟩
  have hst := runRounds_stable c env (r + 1) k (by rw [hstep]; simp)
  refine ⟨{ err := some e', sess := runRounds c env (r + 1),
            disk := (runRounds c env (r + 1)).disk, received := none }, ?_, rfl, rfl, ?_, ?_, ?_, ?_⟩
  · simp only [Get, hst]
    rw [hstep]
  · rw [hstep]
  · rw [hstep]; exact hlen
  · rw [hstep]; simp [hlk]
  · rw [hstep]

/-! ### Properties of `Ls` -/

/-- C8: for a Directory with pairwise different identifiers the text `Ls`
writes is a list of pairwise different identifiers joined by the separator
and followed by one newline, the returned count is the length of that list,
and the identifiers listed are those with a listed peer whose probe answers
true; for the empty Directory, and when no probe answers true, the text is one
newline and the count is 0. -/
theorem Ls_output (sep : String) (probe : String → String → Probe) (storage : Storage)
    (hk : (storage.map Prod.fst).Nodup) :
    (∃ ids : List String, ids.Nodup ∧ ids.Sublist (storage.map Prod.fst) ∧
      (∀ h, h ∈ ids ↔ ∃ e ∈ storage, e.1 = h ∧ ∃ ip ∈ e.2, probe h ip = .holds) ∧
      (Ls sep probe storage).out = String.intercalate sep ids ++ "\n" ∧
      (Ls sep probe storage).available = ids.length) ∧
    (storage = [] →
      (Ls sep probe storage).out = "\n" ∧ (Ls sep probe storage).available = 0) ∧
    ((∀ e ∈ storage, ∀ ip ∈ e.2, probe e.1 ip ≠ .holds) →
      (Ls sep probe storage).out = "\n" ∧ (Ls sep probe storage).available = 0) := by
  obtain ⟨ho, ha⟩ := lsOuter_out sep probe storage []
    { out := "", available := 0, storage := storage } rfl rfl
  simp only [List.nil_append] at ho ha
  have hsub : (emitted probe storage).Sublist (storage.map Prod.fst) :=
    (List.filter_sublist _).map _
  have hout : (Ls sep probe storage).out =
      String.intercalate sep (emitted probe storage) ++ "\n" := by
    simp only [Ls, ho]
  have hav : (Ls sep probe storage).available = (emitted probe storage).length := by
    simp only [Ls, ha]
  refine ⟨⟨emitted probe storage, hsub.nodup hk, hsub, fun h => ?_, hout, hav⟩,
    fun he => ?_, fun hno => ?_⟩
  · simp only [emitted, List.mem_map, List.mem_filter, List.any_eq_true, decide_eq_true_eq]
    constructor
    · rintro ⟨e, ⟨he, ip, hip, hp⟩, rfl⟩
      exact ⟨e, he, rfl, ip, hip, hp⟩
    · rintro ⟨e, he, rfl, ip, hip, hp⟩
      exact ⟨e, ⟨he, ip, hip, hp⟩, rfl⟩
  · subst he
    rw [hout, hav]
    simp [emitted, String.intercalate]
  · have : emitted probe storage = [] := by
      simp only [emitted, List.map_eq_nil_iff, List.filter_eq_nil_iff, List.any_eq_true,
        decide_eq_true_eq, not_exists, not_and]
      exact fun e he ip hip => hno e he ip hip
    rw [hout, hav, this]
    simp [String.intercalate]

/-- C8 on three inputs: for `h1 ↦ p1, p2` and `h2 ↦ p3` with `p1` and `p3`
alive the text is `h1,h2` and a newline and the count is 2; for the empty
Directory, and for `h ↦ a, b` with both peers stale, the text is one newline and
the count is 0. -/
theorem Ls_output_witness :
    (([("h1", ["p1", "p2"]), ("h2", ["p3"])].map Prod.fst).Nodup ∧
      (Ls "," liveProbe [("h1", ["p1", "p2"]), ("h2", ["p3"])]).out = "h1,h2\n" ∧
      (Ls "," liveProbe [("h1", ["p1", "p2"]), ("h2", ["p3"])]).available = 2 ∧
      ∃ ids : List String, ids.Nodup ∧
        ids.Sublist ([("h1", ["p1", "p2"]), ("h2", ["p3"])].map Prod.fst) ∧
        (∀ h, h ∈ ids ↔ ∃ e ∈ [("h1", ["p1", "p2"]), ("h2", ["p3"])],
          e.1 = h ∧ ∃ ip ∈ e.2, liveProbe h ip = .holds) ∧
        (Ls "," liveProbe [("h1", ["p1", "p2"]), ("h2", ["p3"])]).out
          = String.intercalate "," ids ++ "\n" ∧
        (Ls "," liveProbe [("h1", ["p1", "p2"]), ("h2", ["p3"])]).available = ids.length) ∧
    ((Ls "," liveProbe []).out = "\n" ∧ (Ls "," liveProbe []).available = 0) ∧
    ((∀ e ∈ ([("h", ["a", "b"])] : Storage), ∀ ip ∈ e.2, staleProbe e.1 ip ≠ .holds) ∧
      (Ls "," staleProbe [("h", ["a", "b"])]).out = "\n" ∧
      (Ls "," staleProbe [("h", ["a", "b"])]).available = 0) :=
  ⟨⟨by decide, by decide, by decide,
      (Ls_output "," liveProbe [("h1", ["p1", "p2"]), ("h2", ["p3"])] (by decide)).1⟩,
    (Ls_output "," liveProbe [] (by decide)).2.1 rfl,
    by decide, (Ls_output "," staleProbe [("h", ["a", "b"])] (by decide)).2.2 (by decide)⟩

/-- C7 on the list `a, b, c` of `h`, where `a` and `b` answer the probe with no
and `c` with yes: `h` is reported, `a` is removed, but after the pass the stale
peer `b` is still in the list of `h`. -/
theorem Ls_two_stale_peers :
    staleProbe "h" "a" = .lacks ∧ staleProbe "h" "b" = .lacks ∧
    (Ls "," staleProbe [("h", ["a", "b", "c"])]).out = "h\n" ∧
    "a" ∉ peersOf (Ls "," staleProbe [("h", ["a", "b", "c"])]).storage "h" ∧
    "b" ∈ peersOf (Ls "," staleProbe [("h", ["a", "b", "c"])]).storage "h" := by
  decide

/-! ### Properties of one fetch -/

/-- C1 (as the code has it) on scenario 2 with a destination that is the
artifact of the empty fragment 2: the premise holds, and the file is fragment 1
followed by fragment 3. -/
theorem Get_reassembled_bytes_witness :
    ∃ out, Get demoConsts emptyAliasEnv 1 = some out ∧ out.err = none ∧
      (∀ k, emptyAliasEnv.destAlias (out.sess.filename.getD []) = some k →
        k ∈ out.sess.emptyFragSet ∨ ¬ (1 ≤ k ∧ k ≤ out.sess.totalFragments.getD 0)) ∧
      emptyAliasEnv.destAlias (out.sess.filename.getD []) = some 2 ∧
      out.received = some ("received/../x.frag2".toList, "Aa\nCc\n".toList) ∧
      ∃ T name, out.sess = runRounds demoConsts emptyAliasEnv 1 ∧
        out.sess.phase = .finished ∧
        out.sess.totalFragments = some T ∧ out.sess.filename = some name ∧ name ≠ [] ∧
        out.received = some ("received/".toList ++ name,
          (List.range' 1 T).flatMap fun N =>
            if N ∈ out.sess.emptyFragSet then [] else (out.sess.disk N).getD []) ∧
        (∀ N, 1 ≤ N → N ≤ T → N ∉ out.sess.emptyFragSet →
          ∃ b, out.sess.disk N = some b) := by
  have he : (Get demoConsts emptyAliasEnv 1).map (fun o => (o.err, o.received))
      = some (none, some ("received/../x.frag2".toList, "Aa\nCc\n".toList)) := by decide
  have hs : (Get demoConsts emptyAliasEnv 1).map
      (fun o => (o.sess.filename, o.sess.emptyFragSet))
      = some (some "../x.frag2".toList, [2]) := by decide
  cases h : Get demoConsts emptyAliasEnv 1 with
  | none => rw [h] at he; cases he
  | some out =>
    rw [h] at he hs
    simp only [Option.map_some', Option.some.injEq, Prod.mk.injEq] at he hs
    have ha : emptyAliasEnv.destAlias (out.sess.filename.getD []) = some 2 := by
      rw [hs.1]; decide
    have hd : ∀ k, emptyAliasEnv.destAlias (out.sess.filename.getD []) = some k →
        k ∈ out.sess.emptyFragSet ∨ ¬ (1 ≤ k ∧ k ≤ out.sess.totalFragments.getD 0) :=
      fun k hk => by
        rw [ha, Option.some.injEq] at hk
        subst hk
        left
        rw [hs.2]
        decide
    exact ⟨out, rfl, he.1, hd, ha, he.2,
      Get_reassembled_bytes demoConsts emptyAliasEnv 1 out h (Or.inl he.1) hd⟩

/-- C1 fails when the destination is an artifact: two peers send the filename
`../h.frag1`, so the destination path is the path of artifact 1. The round loop
leaves the artifacts `Aa` and `Bb` (each with its newline) and an empty empty
set. `os.Create` truncates artifact 1, the merge loop copies nothing from it and
removes it, then appends artifact 2: `Get` completes the reassembly, the bytes
written to the destination are `Bb` alone and not `Aa` followed by `Bb`, and no
artifact path is left. The same holds whether `HandleShare` succeeds or not. -/
theorem Get_reassembled_bytes_alias :
    (aliasEnv true).destAlias "../h.frag1".toList = some 1 ∧
    (Get demoConsts (aliasEnv true) 1).map (fun o => (o.err, o.received))
      = some (none, some ("received/../h.frag1".toList, "Bb\n".toList)) ∧
    (Get demoConsts (aliasEnv false) 1).map (fun o => (o.err, o.received))
      = some (some .shareFailed, some ("received/../h.frag1".toList, "Bb\n".toList)) ∧
    (Get demoConsts (aliasEnv true) 1).map
        (fun o => (o.sess.totalFragments, o.sess.emptyFragSet))
      = some (some 2, []) ∧
    (Get demoConsts (aliasEnv true) 1).map (fun o => (o.sess.disk 1, o.sess.disk 2))
      = some (some "Aa\n".toList, some "Bb\n".toList) ∧
    (Get demoConsts (aliasEnv true) 1).map (fun o => (o.disk 1, o.disk 2))
      = some (none, none) ∧
    ¬ ((Get demoConsts (aliasEnv true) 1).map (fun o => o.received.map Prod.snd)
      = (Get demoConsts (aliasEnv true) 1).map (fun o => some
          ((List.range' 1 2).flatMap fun N =>
            if N ∈ o.sess.emptyFragSet then [] else (o.sess.disk N).getD []))) := by
  refine ⟨by decide, by decide, by decide, by decide, by decide, by decide, ?_⟩
  decide

/-- C2 fails on scenario 1: in the retry round the peer list is `p1, p3` and
fragment 2, at position 0 of the attempt list, is fetched from `p1`, while
position `(2 - 1) mod 2` of the peer list holds `p3`. -/
theorem Get_peer_by_fragNo_fails :
    (runRounds demoConsts retryEnv 2).log.reverse[1]? = some retryRound1 ∧
    retryRound1.fetches.map (fun f => (f.fragNo, f.peer)) = [(2, "p1")] ∧
    retryRound1.peerList[(2 - 1) % retryRound1.peerList.length]? = some "p3" ∧
    ¬ (∀ r ∈ (runRounds demoConsts retryEnv 2).log, ∀ f ∈ r.fetches,
      r.peerList[(f.fragNo - 1) % r.peerList.length]? = some f.peer) := by
  decide

/-- C2 (as the code has it) on `orderEnv`: the three fetches of the first round
fail and their values arrive in the order 3, 1, 2; the second lookup returns
`p4, p5`, and the retry round fetches fragment 3 from `p4`, fragment 1 from `p5`
and fragment 2 from `p4`. -/
theorem Get_peer_by_position_witness :
    ((runRounds demoConsts orderEnv 2).log.reverse[1]? = some orderRound1 ∧
      (runRounds demoConsts orderEnv 2).log.reverse[0]? = some orderRound0 ∧
      (byFinish orderEnv 0 orderRound0.fetches).flatMap (fun f => f.res.results) = [3, 1, 2] ∧
      orderRound1.fetches.map (fun f => (f.fragNo, f.peer))
        = [(3, "p4"), (1, "p5"), (2, "p4")]) ∧
    ∃ resp, orderEnv.lookup 1 = .line resp ∧
      orderRound1.peerList = goSplit resp demoConsts.lsSeparator ∧
      (1 = 0 → ∃ T, (runRounds demoConsts orderEnv 2).totalFragments = some T ∧
        orderRound1.attempts = List.range' 1 T) ∧
      (∀ (j : Nat) (prev : RoundRec), 1 = j + 1 →
        (runRounds demoConsts orderEnv 2).log.reverse[j]? = some prev →
        orderRound1.attempts = (byFinish orderEnv j prev.fetches).flatMap
          fun f => f.res.results) ∧
      ∀ (i : Nat) (f : Fetch), orderRound1.fetches[i]? = some f →
        orderRound1.attempts[i]? = some f.fragNo ∧ f.slot = i ∧
        orderRound1.peerList[i % orderRound1.peerList.length]? = some f.peer ∧
        f.res = downloadFragment demoConsts (orderEnv.fetch 1 f.peer f.fragNo) f.fragNo ∧
        (1 = 0 → f.fragNo = i + 1 ∧
          orderRound1.peerList[(f.fragNo - 1) % orderRound1.peerList.length]? = some f.peer) :=
  ⟨by decide, Get_peer_by_position demoConsts orderEnv 2 1 orderRound1 (by decide)⟩

/-- C3 on `mixedEnv`: after two rounds the loop has finished; fragments 1 and 3
are downloaded, fragment 2 is empty. -/
theorem Get_outcomes_partition_witness :
    (runRounds demoConsts mixedEnv 2).phase = .finished ∧
    ((runRounds demoConsts mixedEnv 2).emptyFragSet = [2] ∧
      lastOutcome (runRounds demoConsts mixedEnv 2).log 1 = some .downloaded ∧
      lastOutcome (runRounds demoConsts mixedEnv 2).log 3 = some .downloaded) ∧
    ∃ T resp, mixedEnv.lookup 0 = .line resp ∧
      T = (goSplit resp demoConsts.lsSeparator).length ∧
      (runRounds demoConsts mixedEnv 2).totalFragments = some T ∧
      (∀ N, (lastOutcome (runRounds demoConsts mixedEnv 2).log N = some .downloaded ∨
          N ∈ (runRounds demoConsts mixedEnv 2).emptyFragSet) ↔ (1 ≤ N ∧ N ≤ T)) ∧
      (∀ N, ¬ (lastOutcome (runRounds demoConsts mixedEnv 2).log N = some .downloaded ∧
          N ∈ (runRounds demoConsts mixedEnv 2).emptyFragSet)) :=
  ⟨by decide, by decide, Get_outcomes_partition demoConsts mixedEnv 2 (by decide)⟩

/-- C4 on `noPeerEnv`: the second lookup gets the no-peer token; `Get` returns
`ErrGetNoPeerOnline` after two lookups and one round of fetches. -/
theorem Get_lookup_errors_witness :
    ((runRounds demoConsts noPeerEnv 1).phase = .running ∧ 1 < 5 ∧
      noPeerEnv.lookup 1 = .line demoConsts.getNoPeer) ∧
    ∃ out, Get demoConsts noPeerEnv 5 = some out ∧ out.err = some .noPeerOnline ∧
      out.received = none ∧ out.sess.log = (runRounds demoConsts noPeerEnv 1).log ∧
      out.sess.log.length = 1 ∧ out.sess.lookups = 1 + 1 ∧
      out.disk = (runRounds demoConsts noPeerEnv 1).disk :=
  ⟨by decide,
    Get_lookup_errors demoConsts noPeerEnv 1 5 .noPeerOnline (by decide) (by decide)
      (Or.inl ⟨by decide, rfl⟩)⟩

/-- C5 on `mixedEnv`: fragment 2 reports empty in round 0 and is not attempted
in round 1, whose attempt list is the failed fragment 1. -/
theorem Get_empty_never_reattempted_witness :
    ((0 < 1 ∧ (runRounds demoConsts mixedEnv 2).log.reverse[0]? = some mixedRound0 ∧
      (runRounds demoConsts mixedEnv 2).log.reverse[1]? = some mixedRound1 ∧
      2 ∈ mixedRound0.empties) ∧ 2 ∉ mixedRound1.attempts) ∧
    (1 ∈ mixedRound1.attempts ↔ 1 ∈ mixedRound0.failed) :=
  ⟨⟨by decide,
    (Get_empty_never_reattempted demoConsts mixedEnv 2).1 0 1 mixedRound0 mixedRound1
      (by decide) (by decide) (by decide) 2 (by decide)⟩,
    (Get_empty_never_reattempted demoConsts mixedEnv 2).2.1 0 mixedRound0 mixedRound1
      (by decide) (by decide) 1⟩

/-- C10 on the retry round of `mixedEnv`: one attempt, no value on either
channel, capacity 3. -/
theorem Get_channels_within_capacity_witness :
    mixedRound1 ∈ (runRounds demoConsts mixedEnv 2).log ∧
    ∃ T, (runRounds demoConsts mixedEnv 2).totalFragments = some T ∧
      mixedRound1.attempts.Nodup ∧ (∀ N ∈ mixedRound1.attempts, 1 ≤ N ∧ N ≤ T) ∧
      mixedRound1.attempts.length ≤ T ∧
      (∀ f ∈ mixedRound1.fetches, f.res.results.length + f.res.emptyFrags.length ≤ 1) ∧
      mixedRound1.failed.length ≤ T ∧ mixedRound1.empties.length ≤ T :=
  ⟨by decide, Get_channels_within_capacity demoConsts mixedEnv 2 mixedRound1 (by decide)⟩

/-- C9 on `leakEnv`: no artifact exists before the call; the first fetch of
fragment 1 creates the artifact and then fails on a read error, the second
reports the fragment empty; `Get` returns without error, the destination file is
empty, and the artifact of fragment 1 is still on storage. -/
theorem Get_leaves_artifact :
    leakEnv.disk0 1 = none ∧
    (runRounds demoConsts leakEnv 2).log.reverse.map (fun r => (r.attempts, r.failed, r.empties))
      = [([1], [1], []), ([1], [], [1])] ∧
    (Get demoConsts leakEnv 2).map (fun o => (o.err, o.received))
      = some (none, some ("received/f.txt".toList, [])) ∧
    (Get demoConsts leakEnv 2).map (fun o => (o.sess.totalFragments, o.sess.emptyFragSet))
      = some (some 1, [1]) ∧
    (Get demoConsts leakEnv 2).map (fun o => o.disk 1) = some (some "AB\nCD".toList) := by
  decide

end Psirent
